import Mathlib

/-! Hybrid LTDP Viterbi decoder (`viterbi_ltdp_hybrid.c`).

A shallow embedding of `viterbi` from `src/viterbi/viterbi_ltdp_hybrid.c`.

* C `int` values (sizes, ranks, stage and state indices, backpointers) are `Int`.
* C `float` values are elements of `WithBot V`: a finite value of an ordered
  additive group `V`, or `⊥` for `-INFINITY`. In `init_tables`, `best_pred` and
  what is built on them the sums are exact; `init_tables_fl` and `best_pred_fl`
  are the same code with the addition of the machine as a parameter, and
  `f32_add_grid` is the IEEE binary32 addition on a grid of floats, where a sum
  of finite values can overflow to `-INFINITY`.
* C arrays are total functions on `Int` indices; a table write is a pointwise
  update.
* Message passing along the worker chain is sequentialised in rank order, which
  is the only order the blocking receives of the source allow.
* The `omp parallel for` loop of line 109 (over the states `j`, whose
  iterations write disjoint cells) is run as a plain loop. The one of line 148
  (over the stages `i`) has iterations that depend on each other: `fixup_range`
  runs it in increasing order of `i`, as one thread does, and `fixup_range_in`
  takes the order of the iterations as a parameter.
* An array access is not checked in `viterbi` itself; `start_checked` and
  `forward_checked` are lines 25-126 with the accesses observed, and report an
  access out of bounds as undefined behaviour.
* `get_rand_float` and the freshly allocated memory are parameters (`Env`); the
  helpers of `viterbi_helpers.h` that `viterbi` calls are modelled from the spec.
-/

namespace ViterbiLtdp

/-! ## Loops -/

/-- The loop `for (int i = lo; i < hi; i++) body`, as a state transformer. -/
def forLoop {σ : Type} (lo hi : Int) (body : Int → σ → σ) (s : σ) : σ :=
  (List.range (hi - lo).toNat).foldl (fun acc (d : Nat) => body (lo + (d : Int)) acc) s

/-- The loop `for (int i = hi; i > lo; i--) body`, as a state transformer. -/
def forLoopDown {σ : Type} (hi lo : Int) (body : Int → σ → σ) (s : σ) : σ :=
  (List.range (hi - lo).toNat).foldl (fun acc (d : Nat) => body (hi - (d : Int)) acc) s

/-! ## Stage assignment (lines 53-104) -/

/-- Line 56: `comm_size = world_size >= stages_left ? stages_left : world_size`
with `stages_left = t-1`. -/
def comm_size (t world_size : Int) : Int :=
  if world_size ≥ t - 1 then t - 1 else world_size

/-- The stage range of one worker and the count of stages it leaves unassigned. -/
structure StageAssign where
  /-- First owned stage. -/
  lp : Int
  /-- One past the last owned stage. -/
  rp : Int
  /-- Value of `stages_left` after line 101, sent to the right neighbour. -/
  stages_left : Int
deriving DecidableEq, Repr

/-- Lines 81-101 for one worker. `stages_left` is the value held when line 90 is
reached: `t-1` on rank 0, the received count on every other rank. -/
def assign_stages (t world_size world_rank stages_left : Int) : StageAssign :=
  let min_stages_per_node := (t - 1).tdiv world_size
  let lp := if world_rank ≠ 0 then t - stages_left else 1
  let rp :=
    if (t - 1).tmod world_size ≠ 0 ∧ world_rank + 1 ≤ (t - 1).tmod world_size then
      lp + min_stages_per_node + 1
    else
      lp + min_stages_per_node
  let rp := if stages_left - (rp - lp) ≤ 0 then t else rp
  let lp := if stages_left = 0 then -1 else lp
  let rp := if stages_left = 0 then -1 else rp
  { lp := lp, rp := rp, stages_left := stages_left - (rp - lp) }

/-- The handshake of lines 84-104: rank 0 starts from `stages_left = t-1`, rank
`r+1` receives the count that rank `r` sent. -/
def stage_handshake (t world_size : Int) : Nat → StageAssign
  | 0 => assign_stages t world_size 0 (t - 1)
  | r + 1 =>
    assign_stages t world_size ((r : Int) + 1) (stage_handshake t world_size r).stages_left

/-! ## Data model (lines 13-26) -/

/-- The arguments of `viterbi` (lines 13-23). Arrays are total functions on `Int`
indices; a `float` is a finite value of `V` or `⊥` (`-INFINITY`). -/
structure Hmm (V : Type) where
  /-- Number of possible observations. -/
  n : Int
  /-- Number of possible states. -/
  q : Int
  /-- Length of the observed sequence. -/
  t : Int
  /-- Observation space (never read by `viterbi`). -/
  O : Int → Int
  /-- State space: labels of the states. -/
  S : Int → Int
  /-- Initial log-probabilities. -/
  I : Int → WithBot V
  /-- Sequence of observations. -/
  Y : Int → Int
  /-- Transition log-probabilities. -/
  A : Int → Int → WithBot V
  /-- Emission log-probabilities. -/
  B : Int → Int → WithBot V

/-- The two tables of lines 25-26. -/
@[ext]
structure Tables (V : Type) where
  /-- Best-probability table `dp1`. -/
  dp1 : Int → Int → WithBot V
  /-- Backpointer table `dp2`. -/
  dp2 : Int → Int → Int

/-- What a process finds in memory it has not written yet, and what
`get_rand_float(min_prob, max_prob)` returns to it. Indexed by world rank. -/
structure Env (V : Type) where
  /-- Contents of the freshly allocated `dp1` and `dp2` of a process. -/
  fresh : Int → Tables V
  /-- Value returned by `get_rand_float` on a process for the cell `(i, j)`. -/
  rand : Int → Int → Int → WithBot V
  /-- Contents of the array `X` of line 186 before it is written. -/
  freshX : Int → Int

/-- The assignment `tab[i][j] = v`. -/
def write2 {α : Type} (tab : Int → Int → α) (i j : Int) (v : α) : Int → Int → α :=
  fun i' j' => if i' = i ∧ j' = j then v else tab i' j'

/-- The assignment `arr[i] = v`. -/
def write1 {α : Type} (arr : Int → α) (i : Int) (v : α) : Int → α :=
  fun i' => if i' = i then v else arr i'

variable {V : Type} [LinearOrderedAddCommGroup V]

/-! ## Initialisation (lines 31-44) -/

/-- Lines 32-44: row 0 from the first observation, every other row from
`get_rand_float`; `dp2` is zeroed. -/
def init_tables (m : Hmm V) (fresh : Tables V) (rand : Int → Int → WithBot V) : Tables V :=
  forLoop 0 m.t (fun i tb =>
    forLoop 0 m.q (fun j tb =>
      if i = 0 then
        let observation := m.Y 0
        { dp1 := write2 tb.dp1 0 j (m.I j + m.B j observation), dp2 := write2 tb.dp2 0 j 0 }
      else
        { dp1 := write2 tb.dp1 i j (rand i j), dp2 := write2 tb.dp2 i j 0 }) tb) fresh

/-! ## Forward phase (lines 108-126) -/

/-- The pair `(max, arg_max)` of lines 111-112 and 175-176. -/
structure Best (V : Type) where
  /-- Running maximum. -/
  max : WithBot V
  /-- Index at which the running maximum was found. -/
  arg_max : Int

/-- Lines 111-121: the loop over `k` for stage `i` and state `j`, from
`max = -INFINITY`, `arg_max = -1`. The two sums of line 115 are exact here, so
that a sum of finite values is finite; `best_pred_fl` is the same loop with the
addition of the machine, which can overflow. -/
def best_pred (m : Hmm V) (dp1 : Int → Int → WithBot V) (i j : Int) : Best V :=
  forLoop 0 m.q (fun k b =>
    let curr_log_prob := dp1 (i - 1) k + m.A k j + m.B j (m.Y i)
    if curr_log_prob > b.max then { max := curr_log_prob, arg_max := k } else b)
    { max := ⊥, arg_max := -1 }

/-- Lines 110-125: the loop over `j` for stage `i`. -/
def forward_stage (m : Hmm V) (i : Int) (tb : Tables V) : Tables V :=
  forLoop 0 m.q (fun j tb =>
    let b := best_pred m tb.dp1 i j
    { dp1 := write2 tb.dp1 i j b.max, dp2 := write2 tb.dp2 i j b.arg_max }) tb

/-- Lines 108-126: the forward phase over the stages `[lp, rp)`. -/
def forward (m : Hmm V) (lp rp : Int) (tb : Tables V) : Tables V :=
  forLoop lp rp (forward_stage m) tb

/-! ## Fixup phase (lines 131-162) -/

/-- Modelled from the spec: `fix_stage` of `viterbi_helpers.h`, which is not in
the source tree. It recomputes stage `i` as in the forward phase from the
current row `i-1` and returns the new rows `s1` (for `dp1`) and `s2` (for `dp2`). -/
def fix_stage (m : Hmm V) (i : Int) (dp1 : Int → Int → WithBot V) :
    (Int → WithBot V) × (Int → Int) :=
  (fun j => (best_pred m dp1 i j).max, fun j => (best_pred m dp1 i j).arg_max)

/-- Modelled from the spec: `is_parallel` of `viterbi_helpers.h`, which is not in
the source tree. The new row `s1` and the stored row `dp1[i]` are parallel when
they differ by one constant offset, stated without subtraction:
`s1[j] + dp1[i][k] = s1[k] + dp1[i][j]` for all states `j`, `k`. -/
def is_parallel (q i : Int) (s1 : Int → WithBot V) (dp1 : Int → Int → WithBot V) : Bool :=
  (List.range q.toNat).all fun (j : Nat) =>
    (List.range q.toNat).all fun (k : Nat) =>
      decide (s1 (j : Int) + dp1 i (k : Int) = s1 (k : Int) + dp1 i (j : Int))

/-- Modelled from the spec: `copy_new_to_old` of `viterbi_helpers.h`, which is not
in the source tree. It stores the new rows `s1`, `s2` as row `i` of `dp1`, `dp2`. -/
def copy_new_to_old (q i : Int) (s1 : Int → WithBot V) (s2 : Int → Int) (tb : Tables V) :
    Tables V :=
  forLoop 0 q (fun j tb =>
    { dp1 := write2 tb.dp1 i j (s1 j), dp2 := write2 tb.dp2 i j (s2 j) }) tb

/-- The state of one worker of the computation group. -/
structure Worker (V : Type) where
  /-- This worker's copy of `dp1`. -/
  dp1 : Int → Int → WithBot V
  /-- This worker's copy of `dp2`. -/
  dp2 : Int → Int → Int
  /-- First owned stage. -/
  lp : Int
  /-- One past the last owned stage. -/
  rp : Int
  /-- The flag `local_converged`. -/
  local_converged : Int

/-- `MPI_Recv(dp1[row], q, MPI_FLOAT, ...)`: the `q` floats of the message
overwrite `dp1[row][0..q-1]`. -/
def recv_row (q : Int) (dp1 : Int → Int → WithBot V) (row : Int) (msg : Int → WithBot V) :
    Int → Int → WithBot V :=
  fun i j => if i = row ∧ 0 ≤ j ∧ j < q then msg j else dp1 i j

/-- Lines 149-159: the loop over the owned stages of a worker that has not
converged, run in increasing order of `i`. That is the loop as one thread runs
it (`OMP_NUM_THREADS=1`); with several threads the `omp parallel for` of line
148 does not fix the order of the iterations, which `fixup_range_in` takes as a
parameter. -/
def fixup_range (m : Hmm V) (w : Worker V) : Worker V :=
  forLoop w.lp w.rp (fun i w =>
    let s := fix_stage m i w.dp1
    let local_converged : Int := if is_parallel m.q i s.1 w.dp1 then 1 else 0
    if local_converged = 0 then
      let tb := copy_new_to_old m.q i s.1 s.2 { dp1 := w.dp1, dp2 := w.dp2 }
      { w with dp1 := tb.dp1, dp2 := tb.dp2, local_converged := local_converged }
    else
      { w with local_converged := local_converged }) w

/-- Lines 136-138 for every rank of one round: `dp1` of rank `r` once its receive
has completed. Rank 0 receives nothing; rank `r+1` receives the row `dp1[rp-1]`
that rank `r` sends on line 141, after rank `r` has completed its own receive. -/
def round_recv (m : Hmm V) (ws : Nat → Worker V) : Nat → Int → Int → WithBot V
  | 0 => (ws 0).dp1
  | r + 1 =>
    recv_row m.q (ws (r + 1)).dp1 ((ws (r + 1)).lp - 1)
      (fun j => round_recv m ws r ((ws r).rp - 1) j)

/-- Lines 136-160 for rank `world_rank`: one pass through the body of the
do-while loop, up to the reduction. -/
def fixup_round (m : Hmm V) (ws : Nat → Worker V) (world_rank : Nat) : Worker V :=
  let w := { ws world_rank with dp1 := round_recv m ws world_rank }
  if (world_rank : Int) = 0 then
    { w with local_converged := 1 }
  else if w.local_converged = 0 then
    fixup_range m w
  else
    w

/-- Line 161: `MPI_Allreduce` with `MPI_LAND` over the `world_size` workers. -/
def allreduce_land (world_size : Int) (ws : Nat → Worker V) : Int :=
  if (List.range world_size.toNat).all (fun r => decide ((ws r).local_converged ≠ 0)) then 1
  else 0

/-- Lines 134-162: the do-while loop, with a bound on the number of rounds.
Returns the number of rounds executed and the workers at exit, or `none` when
`global_converged` is still 0 after `fuel` rounds. -/
def fixup_loop (m : Hmm V) (world_size : Int) : Nat → (Nat → Worker V) →
    Option (Nat × (Nat → Worker V))
  | 0, _ => none
  | fuel + 1, ws =>
    let ws' := fun r => fixup_round m ws r
    let global_converged := allreduce_land world_size ws'
    if global_converged = 0 then
      (fixup_loop m world_size fuel ws').map (fun p => (p.1 + 1, p.2))
    else
      some (1, ws')

/-! ## Backwards phase (lines 164-199) -/

/-- Lines 170-171 for one sender: the message is the `(rp - lp) * q` ints found
from `dp2[lp]` on in the sender's table, and at most `(rp - prev_rp) * q` of them
are stored from `dp2[prev_rp]` on in rank 0's table (row-major, `q` per row). -/
def recv_block (q : Int) (dp2 : Int → Int → Int) (prev_rp rp : Int) (sender : Worker V) :
    Int → Int → Int :=
  forLoop 0 (min ((rp - prev_rp) * q) ((sender.rp - sender.lp) * q)) (fun k dp2 =>
    write2 dp2 (prev_rp + k / q) (k % q) (sender.dp2 (sender.lp + k / q) (k % q))) dp2

/-- State of the gather loop of lines 168-173 on rank 0. -/
structure Gather where
  /-- Rank 0's variable `rp`, overwritten by each received boundary. -/
  rp : Int
  /-- The variable `prev_rp`. -/
  prev_rp : Int
  /-- Rank 0's `dp2`. -/
  dp2 : Int → Int → Int

/-- Lines 167-174: rank 0 receives, in rank order, each worker's `rp` and its
block of backpointers. -/
def gather (m : Hmm V) (world_size : Int) (ws : Nat → Worker V) : Gather :=
  if world_size > 1 then
    forLoop 1 world_size (fun i g =>
      let rp := (ws i.toNat).rp
      let dp2 := recv_block m.q g.dp2 g.prev_rp rp (ws i.toNat)
      { rp := rp, prev_rp := rp, dp2 := dp2 })
      { rp := (ws 0).rp, prev_rp := (ws 0).rp, dp2 := (ws 0).dp2 }
  else
    { rp := (ws 0).rp, prev_rp := (ws 0).rp, dp2 := (ws 0).dp2 }

/-- Lines 175-184: the best state of row `t-1`, scanning from state 0 with a
strict comparison. -/
def terminal (m : Hmm V) (dp1 : Int → Int → WithBot V) : Best V :=
  forLoop 1 m.q (fun i b =>
    let state_prob := dp1 (m.t - 1) i
    if state_prob > b.max then { max := state_prob, arg_max := i } else b)
    { max := dp1 (m.t - 1) 0, arg_max := 0 }

/-- State of the backtracking loop: the current `arg_max` and the array `X`. -/
structure Back where
  /-- Current state index. -/
  arg_max : Int
  /-- Output array. -/
  X : Int → Int

/-- Lines 186-193: backtracking from `arg_max` through `dp2`. -/
def backtrack (m : Hmm V) (dp2 : Int → Int → Int) (freshX : Int → Int) (arg_max : Int) :
    Back :=
  let X := write1 freshX (m.t - 1) (m.S arg_max)
  if m.t > 1 then
    forLoopDown (m.t - 1) 0 (fun i s =>
      let arg_max := dp2 i s.arg_max
      { arg_max := arg_max, X := write1 s.X (i - 1) (m.S arg_max) })
      { arg_max := arg_max, X := X }
  else
    { arg_max := arg_max, X := X }

/-- Modelled from the spec: `print_arr` of `viterbi_helpers.h`, which is not in
the source tree. The call `print_arr(t, X)` of line 195 emits the ordered
sequence `X[0], ..., X[t-1]` of length `t`. -/
def print_arr (t : Int) (X : Int → Int) : List Int :=
  (List.range t.toNat).map fun (i : Nat) => X (i : Int)

/-! ## The whole of `viterbi` -/

/-- Lines 25-126 for the member `world_rank` of a group of `world_size` workers:
initialisation, stage assignment, forward phase, and `local_converged = 0`. -/
def start_worker (m : Hmm V) (env : Env V) (world_size : Int) (world_rank : Nat) : Worker V :=
  let tb := init_tables m (env.fresh world_rank) (env.rand world_rank)
  let a := stage_handshake m.t world_size world_rank
  let tb := forward m a.lp a.rp tb
  { dp1 := tb.dp1, dp2 := tb.dp2, lp := a.lp, rp := a.rp, local_converged := 0 }

/-- How a process leaves `viterbi`. -/
inductive ProcEnd (V : Type) where
  /-- The process got `MPI_COMM_NULL` and jumped to `terminate` (line 75). -/
  | excluded : ProcEnd V
  /-- The fixup loop was still running when the round bound was reached. -/
  | running : ProcEnd V
  /-- The process ran lines 77-199: the number of fixup rounds, its final state
  and, on rank 0, the printed sequence. -/
  | done (rounds : Nat) (w : Worker V) (printed : Option (List Int)) : ProcEnd V

/-- Lines 164-199 on rank 0: gather, terminal state, backtracking, output. -/
def backwards (m : Hmm V) (env : Env V) (world_size : Int) (ws : Nat → Worker V) :
    Worker V × List Int :=
  let g := gather m world_size ws
  let b := terminal m (ws 0).dp1
  let s := backtrack m g.dp2 env.freshX b.arg_max
  ({ ws 0 with dp2 := g.dp2, rp := g.rp }, print_arr m.t s.X)

/-- The function `viterbi` as run by the process `world_rank` of `world_size`
processes. The group `comm` holds the ranks `0 .. comm_size-1`; every other
process gets `MPI_COMM_NULL` from `MPI_Comm_create_group` and jumps to
`terminate`. `fuel` bounds the number of fixup rounds. -/
def viterbi (fuel : Nat) (m : Hmm V) (env : Env V) (world_size world_rank : Int) : ProcEnd V :=
  let stages_left := m.t - 1
  let comm_size := if world_size ≥ stages_left then stages_left else world_size
  if ¬ (0 ≤ world_rank ∧ world_rank < comm_size) then
    ProcEnd.excluded
  else
    let world_size := comm_size
    match fixup_loop m world_size fuel (start_worker m env world_size) with
    | none => ProcEnd.running
    | some (rounds, ws) =>
      if world_rank = 0 then
        let r := backwards m env world_size ws
        ProcEnd.done rounds r.1 (some r.2)
      else
        ProcEnd.done rounds (ws world_rank.toNat) none

/-! ## Concrete instances -/

/-- A two-state, two-observation model over the integers with three
observations. -/
def demoHmm : Hmm Int where
  n := 2
  q := 2
  t := 3
  O := fun i => i
  S := fun i => i + 10
  I := fun j => if j = 0 then ((-1 : Int) : WithBot Int) else ((-2 : Int) : WithBot Int)
  Y := fun i => if i = 1 then 1 else 0
  A := fun k j => if k = j then ((-1 : Int) : WithBot Int) else ((-3 : Int) : WithBot Int)
  B := fun j o => if j = o then ((-1 : Int) : WithBot Int) else ((-2 : Int) : WithBot Int)

/-- An environment for `demoHmm`: zeroed fresh memory, placeholder `-1`. -/
def demoEnv : Env Int where
  fresh := fun _ => { dp1 := fun _ _ => ((0 : Int) : WithBot Int), dp2 := fun _ _ => 0 }
  rand := fun _ _ _ => ((-1 : Int) : WithBot Int)
  freshX := fun _ => 0

/-- A two-state model over the rationals with three observations, all equal to
observation 0. State 1 is the better explanation at every stage. -/
def ratHmm : Hmm ℚ where
  n := 2
  q := 2
  t := 3
  O := fun i => i
  S := fun i => i
  I := fun j => if j = 0 then ((-2 : ℚ) : WithBot ℚ) else ((-1 : ℚ) : WithBot ℚ)
  Y := fun _ => 0
  A := fun k j => if k = j then ((-1 : ℚ) : WithBot ℚ) else ((-3 : ℚ) : WithBot ℚ)
  B := fun j o => if j = o then ((-3 : ℚ) : WithBot ℚ) else ((-1 : ℚ) : WithBot ℚ)

/-- An environment for `ratHmm`: on every process `get_rand_float(-1.000, -0.001)`
returns `-1/4` for the cells of state 0 and `-3/4` for the cells of state 1. -/
def ratEnv : Env ℚ where
  fresh := fun _ => { dp1 := fun _ _ => ((0 : ℚ) : WithBot ℚ), dp2 := fun _ _ => 0 }
  rand := fun _ _ j => if j = 0 then ((-1 / 4 : ℚ) : WithBot ℚ) else ((-3 / 4 : ℚ) : WithBot ℚ)
  freshX := fun _ => 0

/-- The environment `ratEnv` with other placeholders: `get_rand_float` returns
`-3/4` for the cells of state 0 and `-1/4` for the cells of state 1. -/
def ratEnvSwapped : Env ℚ :=
  { ratEnv with
    rand := fun _ _ j => if j = 0 then ((-3 / 4 : ℚ) : WithBot ℚ) else ((-1 / 4 : ℚ) : WithBot ℚ) }

/-- A group in which every worker holds the tables and the range of rank 1 of two
workers after the forward phase on `demoHmm`, with `local_converged = 1`. -/
def demoFrozen : Nat → Worker Int :=
  fun _ => { start_worker demoHmm demoEnv 2 1 with local_converged := 1 }

/-- The sequence printed by a process, if any. -/
def ProcEnd.printed {V : Type} : ProcEnd V → Option (List Int)
  | ProcEnd.excluded => none
  | ProcEnd.running => none
  | ProcEnd.done _ _ out => out

/-- The number of fixup rounds a process has completed, if it took part. -/
def ProcEnd.rounds {V : Type} : ProcEnd V → Option Nat
  | ProcEnd.excluded => none
  | ProcEnd.running => none
  | ProcEnd.done r _ _ => some r

/-! ## Closed forms used to describe the stage assignment -/

/-- Size of the range of rank `r`: the base chunk, plus one for the first
`(t-1) mod W` ranks. -/
def chunk (t W : Int) (r : Int) : Int :=
  (t - 1) / W + (if r < (t - 1) % W then 1 else 0)

/-- Closed form of the left end of the range of rank `r`. -/
def lpClosed (t W : Int) (r : Int) : Int :=
  1 + r * ((t - 1) / W) + min r ((t - 1) % W)

/-! ## Notions used to state the properties of the dynamic programme -/

/-- The pair `b` holds the first maximum of `f` over `[0, hi)`: `b.arg_max` is an
index of `[0, hi)`, `b.max` is the value of `f` there, no value of `f` over
`[0, hi)` is greater and every value at a lower index is strictly smaller. -/
def IsFirstMax {V : Type} [LinearOrderedAddCommGroup V] (f : Int → WithBot V) (hi : Int)
    (b : Best V) : Prop :=
  0 ≤ b.arg_max ∧ b.arg_max < hi ∧ b.max = f b.arg_max ∧
    (∀ k, 0 ≤ k → k < hi → f k ≤ b.max) ∧ (∀ k, 0 ≤ k → k < b.arg_max → f k < b.max)

/-- The pair `b` is still the initial `(-INFINITY, -1)` and `f` is `-INFINITY`
all over `[0, hi)`. -/
def IsUnset {V : Type} [LinearOrderedAddCommGroup V] (f : Int → WithBot V) (hi : Int)
    (b : Best V) : Prop :=
  b.arg_max = -1 ∧ b.max = ⊥ ∧ ∀ k, 0 ≤ k → k < hi → f k = ⊥

/-- The candidate value of line 115 for stage `i`, state `j` and predecessor `k`. -/
def cand {V : Type} [LinearOrderedAddCommGroup V] (m : Hmm V) (dp1 : Int → Int → WithBot V)
    (i j k : Int) : WithBot V :=
  dp1 (i - 1) k + m.A k j + m.B j (m.Y i)

/-- The state reached at stage `i` by following the backpointers of `dp2` down
from state `a` at stage `hi`. -/
def backPath (dp2 : Int → Int → Int) (hi a : Int) (i : Int) : Int :=
  forLoopDown hi i (fun k s => dp2 k s) a

/-- Total score of the state path `x_0, ..., x_i`:
`I[x_0] + B[x_0][Y[0]] + Σ_(k=1..i) (A[x_(k-1)][x_k] + B[x_k][Y[k]])`. -/
def pathScore {V : Type} [LinearOrderedAddCommGroup V] (m : Hmm V) (x : Int → Int) (i : Int) :
    WithBot V :=
  m.I (x 0) + m.B (x 0) (m.Y 0) +
    ∑ k in Finset.Ico (1 : Int) (i + 1), (m.A (x (k - 1)) (x k) + m.B (x k) (m.Y k))

/-- Every state of `x_0, ..., x_i` is an index of `[0, q)`. -/
def IsPath (q : Int) (x : Int → Int) (i : Int) : Prop :=
  ∀ k, 0 ≤ k → k ≤ i → 0 ≤ x k ∧ x k < q

/-! ## Notions used to state the properties of the stage assignment -/

/-- Value of `stages_left` with which rank `r` reaches line 90: `t-1` on rank 0
(line 53), the count received on line 85 on every other rank. -/
def stages_left_in (t world_size : Int) : Nat → Int
  | 0 => t - 1
  | r + 1 => (stage_handshake t world_size r).stages_left

/-- Value of `lp` after lines 84-89. -/
def lp_rule (t world_rank stages_left : Int) : Int :=
  if world_rank ≠ 0 then t - stages_left else 1

/-- Value of `rp` after lines 90-94, before the clamp of line 95. -/
def rp_rule (t world_size world_rank stages_left : Int) : Int :=
  if (t - 1).tmod world_size ≠ 0 ∧ world_rank + 1 ≤ (t - 1).tmod world_size then
    lp_rule t world_rank stages_left + (t - 1).tdiv world_size + 1
  else
    lp_rule t world_rank stages_left + (t - 1).tdiv world_size

/-- The test of line 95 on the values of lines 84-94: the clamp `rp = t` fires. -/
def clamp_fires (t world_size world_rank stages_left : Int) : Prop :=
  stages_left - (rp_rule t world_size world_rank stages_left -
    lp_rule t world_rank stages_left) ≤ 0

/-! ## Notions used to state the properties of the fixup phase -/

/-- The body of the loop of lines 149-159 for stage `i`. -/
def fixup_stage {V : Type} [LinearOrderedAddCommGroup V] (m : Hmm V) (i : Int)
    (w : Worker V) : Worker V :=
  let s := fix_stage m i w.dp1
  let local_converged : Int := if is_parallel m.q i s.1 w.dp1 then 1 else 0
  if local_converged = 0 then
    let tb := copy_new_to_old m.q i s.1 s.2 { dp1 := w.dp1, dp2 := w.dp2 }
    { w with dp1 := tb.dp1, dp2 := tb.dp2, local_converged := local_converged }
  else
    { w with local_converged := local_converged }

/-- The workers after `n` passes through the body of the do-while loop of lines
134-162, the exit test left aside. -/
def fixup_rounds {V : Type} [LinearOrderedAddCommGroup V] (m : Hmm V) :
    Nat → (Nat → Worker V) → Nat → Worker V
  | 0, ws => ws
  | n + 1, ws => fun r => fixup_round m (fixup_rounds m n ws) r

/-- The row sent on line 141 by rank `r` in the round that starts from `ws`: its
row `dp1[rp-1]` once its own receive of that round has completed. -/
def sent_row {V : Type} [LinearOrderedAddCommGroup V] (m : Hmm V) (ws : Nat → Worker V)
    (r : Nat) : Int → WithBot V :=
  fun j => round_recv m ws r ((ws r).rp - 1) j

/-- Every owned stage of `w` is parallel to what `fix_stage` recomputes for it
from the row below: a further pass of lines 149-159 copies nothing. -/
def Settled {V : Type} [LinearOrderedAddCommGroup V] (m : Hmm V) (w : Worker V) : Prop :=
  ∀ i, w.lp ≤ i → i < w.rp → is_parallel m.q i (fix_stage m i w.dp1).1 w.dp1 = true

/-! ## Array accesses of lines 25-126 -/

/-- Lines 32-44 with the `float` addition of line 36 as a parameter: `fadd x y` is
the sum the machine returns. -/
def init_tables_fl {V : Type} [LinearOrderedAddCommGroup V]
    (fadd : WithBot V → WithBot V → WithBot V) (m : Hmm V) (fresh : Tables V)
    (rand : Int → Int → WithBot V) : Tables V :=
  forLoop 0 m.t (fun i tb =>
    forLoop 0 m.q (fun j tb =>
      if i = 0 then
        let observation := m.Y 0
        { dp1 := write2 tb.dp1 0 j (fadd (m.I j) (m.B j observation)),
          dp2 := write2 tb.dp2 0 j 0 }
      else
        { dp1 := write2 tb.dp1 i j (rand i j), dp2 := write2 tb.dp2 i j 0 }) tb) fresh

/-- Lines 111-121 with the `float` addition of line 115 as a parameter: the two
sums of `float` operands are taken left to right, each by the machine in
`float`; the `double curr_log_prob` and the `float max` then hold that value
unchanged. -/
def best_pred_fl {V : Type} [LinearOrderedAddCommGroup V]
    (fadd : WithBot V → WithBot V → WithBot V) (m : Hmm V) (dp1 : Int → Int → WithBot V)
    (i j : Int) : Best V :=
  forLoop 0 m.q (fun k b =>
    let curr_log_prob := fadd (fadd (dp1 (i - 1) k) (m.A k j)) (m.B j (m.Y i))
    if curr_log_prob > b.max then { max := curr_log_prob, arg_max := k } else b)
    { max := ⊥, arg_max := -1 }

/-- Lines 110-125 with the addition of the machine. -/
def forward_stage_fl {V : Type} [LinearOrderedAddCommGroup V]
    (fadd : WithBot V → WithBot V → WithBot V) (m : Hmm V) (i : Int) (tb : Tables V) :
    Tables V :=
  forLoop 0 m.q (fun j tb =>
    let b := best_pred_fl fadd m tb.dp1 i j
    { dp1 := write2 tb.dp1 i j b.max, dp2 := write2 tb.dp2 i j b.arg_max }) tb

/-- Lines 108-126 with the addition of the machine. -/
def forward_fl {V : Type} [LinearOrderedAddCommGroup V]
    (fadd : WithBot V → WithBot V → WithBot V) (m : Hmm V) (lp rp : Int) (tb : Tables V) :
    Tables V :=
  forLoop lp rp (forward_stage_fl fadd m) tb

/-- IEEE binary32 addition (round to nearest) on the floats `-INFINITY` and
`k * 2^104` with `-2^24 < k ≤ 0`, each written as its `k`. Every such `k * 2^104`
is a float (24 significant bits, exponent at most 104) and `-(2^24 - 1) * 2^104`
is the most negative finite float. The exact sum of two of them is again a
multiple of `2^104`: it is the float sum when it is above `-2^24 * 2^104 = -2^128`,
and from `-2^128` down the sum overflows to `-INFINITY`. -/
def f32_add_grid (x y : WithBot Int) : WithBot Int :=
  match x, y with
  | some a, some b => if a + b ≤ -16777216 then ⊥ else ((a + b : Int) : WithBot Int)
  | _, _ => ⊥

/-- The stages of `[lp, rp)` in increasing order. -/
def stages_in_order (lp rp : Int) : List Int :=
  (List.range (rp - lp).toNat).map fun (d : Nat) => lp + (d : Int)

/-- Lines 149-159 with the iterations of the `#pragma omp parallel for` loop
carried out one after another in the order `order`, a listing of the stages of
`[lp, rp)`. Every iteration reads row `i-1`, may write row `i` and writes the one
shared `local_converged`, so the order shows in the result. -/
def fixup_range_in {V : Type} [LinearOrderedAddCommGroup V] (m : Hmm V) (order : List Int)
    (w : Worker V) : Worker V :=
  order.foldl (fun w i => fixup_stage m i w) w

/-- Lines 136-160 for rank `world_rank`, where `order r` is the order in which
rank `r` carries out its iterations of lines 149-159 in this round. -/
def fixup_round_in {V : Type} [LinearOrderedAddCommGroup V] (m : Hmm V)
    (order : Nat → List Int) (ws : Nat → Worker V) (world_rank : Nat) : Worker V :=
  let w := { ws world_rank with dp1 := round_recv m ws world_rank }
  if (world_rank : Int) = 0 then
    { w with local_converged := 1 }
  else if w.local_converged = 0 then
    fixup_range_in m (order world_rank) w
  else
    w

/-- Lines 134-162 under the schedule `sched`: `sched k r` is the order of the
iterations of rank `r` in the round numbered `k` (from `round` on). Returns the
number of rounds executed and the workers at exit, or `none` when
`global_converged` is still 0 after `fuel` rounds. -/
def fixup_loop_in {V : Type} [LinearOrderedAddCommGroup V] (m : Hmm V) (world_size : Int)
    (sched : Nat → Nat → List Int) : Nat → Nat → (Nat → Worker V) →
    Option (Nat × (Nat → Worker V))
  | 0, _, _ => none
  | fuel + 1, round, ws =>
    let ws' := fun r => fixup_round_in m (sched round) ws r
    let global_converged := allreduce_land world_size ws'
    if global_converged = 0 then
      (fixup_loop_in m world_size sched fuel (round + 1) ws').map (fun p => (p.1 + 1, p.2))
    else
      some (1, ws')

/-- The schedule of a single thread: every rank, in every round, carries out its
iterations in increasing order of `i`. -/
def in_order_sched {V : Type} (ws : Nat → Worker V) : Nat → Nat → List Int :=
  fun _ r => stages_in_order (ws r).lp (ws r).rp

/-- A five-observation model with two states that tend to persist. -/
def raceHmm : Hmm Int where
  n := 2
  q := 2
  t := 5
  O := fun i => i
  S := fun i => i
  I := fun j => if j = 0 then ((-1 : Int) : WithBot Int) else ((-4 : Int) : WithBot Int)
  Y := fun _ => 0
  A := fun k j => if k = j then ((0 : Int) : WithBot Int) else ((-10 : Int) : WithBot Int)
  B := fun j o => if j = o then ((-1 : Int) : WithBot Int) else ((-2 : Int) : WithBot Int)

/-- A schedule for two workers with the ranges `[1, 3)` and `[3, 5)`: in the first
round rank 1 carries out stage 4 before stage 3, in every other round stage 3
before stage 4. -/
def raceSched : Nat → Nat → List Int :=
  fun round r =>
    if r = 0 then [1, 2] else if round = 0 then [4, 3] else [3, 4]

/-! ## Loop rules -/

theorem forLoop_empty {σ : Type} (lo hi : Int) (body : Int → σ → σ) (s : σ) (h : hi ≤ lo) :
    forLoop lo hi body s = s := by
  unfold forLoop
  have : (hi - lo).toNat = 0 := by omega
  rw [this]
  rfl

theorem forLoop_succ {σ : Type} (lo hi : Int) (body : Int → σ → σ) (s : σ) (h : lo ≤ hi) :
    forLoop lo (hi + 1) body s = body hi (forLoop lo hi body s) := by
  unfold forLoop
  have h1 : (hi + 1 - lo).toNat = (hi - lo).toNat + 1 := by omega
  have h2 : lo + (((hi - lo).toNat : Nat) : Int) = hi := by omega
  rw [h1, List.range_succ, List.foldl_append]
  simp only [List.foldl_cons, List.foldl_nil, h2]

theorem forLoopDown_empty {σ : Type} (hi lo : Int) (body : Int → σ → σ) (s : σ) (h : hi ≤ lo) :
    forLoopDown hi lo body s = s := by
  unfold forLoopDown
  have : (hi - lo).toNat = 0 := by omega
  rw [this]
  rfl

theorem forLoopDown_last {σ : Type} (hi lo : Int) (body : Int → σ → σ) (s : σ) (h : lo ≤ hi) :
    forLoopDown hi (lo - 1) body s = body lo (forLoopDown hi lo body s) := by
  unfold forLoopDown
  have h1 : (hi - (lo - 1)).toNat = (hi - lo).toNat + 1 := by omega
  have h2 : hi - (((hi - lo).toNat : Nat) : Int) = lo := by omega
  rw [h1, List.range_succ, List.foldl_append]
  simp only [List.foldl_cons, List.foldl_nil, h2]
/-- Induction upwards from `lo` with an explicit motive. -/
theorem int_up_induction (P : Int → Prop) (lo : Int) (h0 : P lo)
    (h1 : ∀ n, lo ≤ n → P n → P (n + 1)) : ∀ n, lo ≤ n → P n :=
  fun n h => Int.le_induction h0 h1 n h

/-- Invariant rule for `forLoop`. -/
theorem forLoop_invariant {σ : Type} (P : Int → σ → Prop) (lo hi : Int) (body : Int → σ → σ)
    (s : σ) (hle : lo ≤ hi) (h0 : P lo s)
    (hstep : ∀ i st, lo ≤ i → i < hi → P i st → P (i + 1) (body i st)) :
    P hi (forLoop lo hi body s) := by
  have key : ∀ n : Nat, lo + n ≤ hi → P (lo + n) (forLoop lo (lo + n) body s) := by
    intro n
    induction n with
    | zero =>
      intro _
      rw [Nat.cast_zero, add_zero, forLoop_empty lo lo body s le_rfl]
      exact h0
    | succ n ih =>
      intro hn
      push_cast at hn ⊢
      rw [← add_assoc, forLoop_succ lo (lo + n) body s (by omega)]
      exact hstep _ _ (by omega) (by omega) (ih (by omega))
  have h := key (hi - lo).toNat (by omega)
  have e : lo + ((hi - lo).toNat : Int) = hi := by omega
  rwa [e] at h

/-- Invariant rule for `forLoopDown`. -/
theorem forLoopDown_invariant {σ : Type} (P : Int → σ → Prop) (hi lo : Int)
    (body : Int → σ → σ) (s : σ) (hle : lo ≤ hi) (h0 : P hi s)
    (hstep : ∀ i st, lo < i → i ≤ hi → P i st → P (i - 1) (body i st)) :
    P lo (forLoopDown hi lo body s) := by
  have key : ∀ n : Nat, lo ≤ hi - n → P (hi - n) (forLoopDown hi (hi - n) body s) := by
    intro n
    induction n with
    | zero =>
      intro _
      rw [Nat.cast_zero, sub_zero, forLoopDown_empty hi hi body s le_rfl]
      exact h0
    | succ n ih =>
      intro hn
      push_cast at hn ⊢
      rw [← sub_sub, forLoopDown_last hi (hi - n) body s (by omega)]
      exact hstep _ _ (by omega) (by omega) (ih (by omega))
  have h := key (hi - lo).toNat (by omega)
  have e : hi - ((hi - lo).toNat : Int) = lo := by omega
  rwa [e] at h

/-! ## Stage assignment: closed form -/

/-- One step of the handshake when at least the worker's share is still
unassigned: the worker takes `[t - stages_left, t - stages_left + size)`. -/
theorem assign_stages_step (t W rk sl b e : Int) (hb : (t - 1).tdiv W = b)
    (he : (t - 1).tmod W = e) (hrk : 0 ≤ rk) (hrk0 : rk = 0 → sl = t - 1) (hsl : 0 < sl)
    (hsz : b + (if rk + 1 ≤ e then 1 else 0) ≤ sl) :
    assign_stages t W rk sl =
      { lp := t - sl,
        rp := t - sl + (b + (if rk + 1 ≤ e then 1 else 0)),
        stages_left := sl - (b + (if rk + 1 ≤ e then 1 else 0)) } := by
  unfold assign_stages
  rw [hb, he]
  simp only [StageAssign.mk.injEq]
  refine ⟨?_, ?_, ?_⟩ <;> (split_ifs <;> omega)

theorem lpClosed_succ (t W r : Int) :
    lpClosed t W (r + 1) = lpClosed t W r + chunk t W r := by
  unfold lpClosed chunk
  have h : (r + 1) * ((t - 1) / W) = r * ((t - 1) / W) + (t - 1) / W := by ring
  rw [h]
  rcases le_or_lt ((t - 1) % W) r with hle | hlt
  · rw [min_eq_right hle, min_eq_right (by omega), if_neg (by omega)]
    omega
  · rw [min_eq_left (by omega), min_eq_left (by omega), if_pos hlt]
    omega

theorem lpClosed_le (t W r : Int) : lpClosed t W r + (W - r) * ((t - 1) / W) ≤ t := by
  unfold lpClosed
  have hsplit : W * ((t - 1) / W) + (t - 1) % W = t - 1 := Int.ediv_add_emod (t - 1) W
  have h : (W - r) * ((t - 1) / W) = W * ((t - 1) / W) - r * ((t - 1) / W) := by ring
  have hm : min r ((t - 1) % W) ≤ (t - 1) % W := min_le_right _ _
  omega

theorem lpClosed_top (t W : Int) (hW1 : 1 ≤ W) : lpClosed t W W = t := by
  unfold lpClosed
  have hsplit : W * ((t - 1) / W) + (t - 1) % W = t - 1 := Int.ediv_add_emod (t - 1) W
  have heW : (t - 1) % W < W := Int.emod_lt_of_pos _ (by omega)
  rw [min_eq_right heW.le]
  omega

theorem base_pos (t W : Int) (hW1 : 1 ≤ W) (hWt : W ≤ t - 1) : 1 ≤ (t - 1) / W :=
  (Int.le_ediv_iff_mul_le (by omega)).2 (by omega)

/-- Closed form of the range the handshake gives to rank `r`. -/
theorem stage_handshake_closed (t W : Int) (hW1 : 1 ≤ W) (hWt : W ≤ t - 1) (r : Nat)
    (hr : (r : Int) < W) :
    stage_handshake t W r =
      { lp := lpClosed t W r,
        rp := lpClosed t W (r + 1),
        stages_left := t - lpClosed t W (r + 1) } := by
  have hdiv : (t - 1).tdiv W = (t - 1) / W := Int.tdiv_eq_ediv (by omega) (by omega)
  have hmod : (t - 1).tmod W = (t - 1) % W := Int.tmod_eq_emod (by omega) (by omega)
  have hb1 := base_pos t W hW1 hWt
  have hr0 : (0 : Int) ≤ r := Int.natCast_nonneg r
  have hbound := lpClosed_le t W (r + 1)
  have hd0 : 0 ≤ (W - (r + 1)) * ((t - 1) / W) := mul_nonneg (by omega) (by omega)
  have hsucc := lpClosed_succ t W r
  have hchunk : chunk t W r = (t - 1) / W + (if (r : Int) + 1 ≤ (t - 1) % W then 1 else 0) := by
    unfold chunk
    by_cases h : (r : Int) < (t - 1) % W
    · rw [if_pos h, if_pos (by omega)]
    · rw [if_neg h, if_neg (by omega)]
  induction r with
  | zero =>
    have hl0 : lpClosed t W 0 = 1 := by
      unfold lpClosed
      have he0 : 0 ≤ (t - 1) % W := Int.emod_nonneg _ (by omega)
      rw [min_eq_left he0]
      omega
    simp only [Nat.cast_zero, zero_add] at *
    rw [stage_handshake, assign_stages_step t W 0 (t - 1) _ _ hdiv hmod le_rfl (fun _ => rfl)
      (by omega) (by rw [zero_add, ← hchunk]; omega)]
    rw [zero_add, ← hchunk, hsucc, hl0]
    simp only [StageAssign.mk.injEq]
    omega
  | succ r ih =>
    have hr' : (r : Int) < W := by push_cast at hr; omega
    have hb' := lpClosed_le t W (r + 1)
    have ih := ih hr' (Int.natCast_nonneg r) hb' (mul_nonneg (by omega) (by omega))
      (lpClosed_succ t W r)
      (by
        unfold chunk
        by_cases h : (r : Int) < (t - 1) % W
        · rw [if_pos h, if_pos (by omega)]
        · rw [if_neg h, if_neg (by omega)])
    push_cast at *
    rw [stage_handshake, ih]
    simp only
    have hmul : (W - (↑r + 1)) * ((t - 1) / W) =
        (t - 1) / W + (W - (↑r + 1 + 1)) * ((t - 1) / W) := by ring
    rw [assign_stages_step t W (r + 1) _ _ _ hdiv hmod (by omega) (by omega)
      (by omega) (by rw [← hchunk]; omega)]
    rw [← hchunk, hsucc]
    simp only [StageAssign.mk.injEq]
    omega

theorem chunk_pos (t W r : Int) (hW1 : 1 ≤ W) (hWt : W ≤ t - 1) : 1 ≤ chunk t W r := by
  have := base_pos t W hW1 hWt
  unfold chunk
  split_ifs <;> omega

theorem lpClosed_zero (t W : Int) (hW1 : 1 ≤ W) : lpClosed t W 0 = 1 := by
  unfold lpClosed
  have he0 : 0 ≤ (t - 1) % W := Int.emod_nonneg _ (by omega)
  rw [min_eq_left he0]
  omega

theorem lpClosed_mono (t W : Int) (hW1 : 1 ≤ W) (hWt : W ≤ t - 1) (r : Nat) (d : Nat) :
    lpClosed t W r + d ≤ lpClosed t W ((r : Int) + d) := by
  induction d with
  | zero => simp
  | succ d ih =>
    have h1 := lpClosed_succ t W ((r : Int) + d)
    have h2 := chunk_pos t W ((r : Int) + d) hW1 hWt
    push_cast
    rw [← add_assoc ((r : Int)) (d : Int) 1, h1]
    omega

/-- Every stage below the left end of rank `n` lies in the range of a lower rank. -/
theorem lpClosed_cover (t W : Int) (hW1 : 1 ≤ W) (n : Nat) (i : Int) (h1 : 1 ≤ i)
    (hi : i < lpClosed t W n) :
    ∃ r : Nat, r < n ∧ lpClosed t W r ≤ i ∧ i < lpClosed t W ((r : Int) + 1) := by
  induction n with
  | zero =>
    rw [Nat.cast_zero, lpClosed_zero t W hW1] at hi
    omega
  | succ n ih =>
    by_cases h : i < lpClosed t W n
    · obtain ⟨r, hr, h2, h3⟩ := ih h
      exact ⟨r, Nat.lt_succ_of_lt hr, h2, h3⟩
    · refine ⟨n, Nat.lt_succ_self n, by omega, ?_⟩
      push_cast at hi
      exact hi

/-- C1. For `t ≥ 2` and `world_size ≥ 1`, with `W = comm_size t world_size =
min world_size (t-1)`, the ranges `[lp_r, rp_r)` of the handshake satisfy
`lp_0 = 1`, `lp_(r+1) = rp_r` for `r < W-1` and `rp_(W-1) = t`; ranges of
different ranks do not overlap and a stage lies in `[1, t)` exactly when it lies
in the range of some rank below `W`. -/
theorem C1_stage_partition (t world_size : Int) (ht : 2 ≤ t) (hws : 1 ≤ world_size) :
    comm_size t world_size = min world_size (t - 1) ∧
    (stage_handshake t (comm_size t world_size) 0).lp = 1 ∧
    (∀ r : Nat, (r : Int) + 1 < comm_size t world_size →
      (stage_handshake t (comm_size t world_size) (r + 1)).lp =
        (stage_handshake t (comm_size t world_size) r).rp) ∧
    (stage_handshake t (comm_size t world_size) (comm_size t world_size - 1).toNat).rp = t ∧
    (∀ r s : Nat, r < s → (s : Int) < comm_size t world_size →
      (stage_handshake t (comm_size t world_size) r).rp ≤
        (stage_handshake t (comm_size t world_size) s).lp) ∧
    (∀ i : Int, (1 ≤ i ∧ i < t) ↔
      ∃ r : Nat, (r : Int) < comm_size t world_size ∧
        (stage_handshake t (comm_size t world_size) r).lp ≤ i ∧
        i < (stage_handshake t (comm_size t world_size) r).rp) := by
  have hW : comm_size t world_size = min world_size (t - 1) := by
    unfold comm_size
    split_ifs with h
    · exact (min_eq_right h).symm
    · exact (min_eq_left (by omega)).symm
  have hW1 : 1 ≤ comm_size t world_size := by rw [hW]; exact le_min hws (by omega)
  have hWt : comm_size t world_size ≤ t - 1 := by rw [hW]; exact min_le_right _ _
  generalize comm_size t world_size = W at *
  have hcl := stage_handshake_closed t W hW1 hWt
  refine ⟨hW, ?_, ?_, ?_, ?_, ?_⟩
  · rw [hcl 0 (by simpa using (by omega : (0 : Int) < W))]
    exact lpClosed_zero t W hW1
  · intro r hr
    rw [hcl (r + 1) (by push_cast; omega), hcl r (by omega)]
    simp
  · have hc : (((W - 1).toNat : Nat) : Int) = W - 1 := Int.toNat_of_nonneg (by omega)
    rw [hcl _ (by omega)]
    simp only [hc, sub_add_cancel]
    exact lpClosed_top t W hW1
  · intro r s hrs hs
    have hrs' : (r : Int) < s := by exact_mod_cast hrs
    rw [hcl r (by omega), hcl s hs]
    simp only
    obtain ⟨d, rfl⟩ := Nat.exists_eq_add_of_le (Nat.succ_le_of_lt hrs)
    have := lpClosed_mono t W hW1 hWt (r + 1) d
    push_cast at this ⊢
    omega
  · intro i
    constructor
    · rintro ⟨h1, h2⟩
      have hc : (((W).toNat : Nat) : Int) = W := Int.toNat_of_nonneg (by omega)
      have hi : i < lpClosed t W (W.toNat : Nat) := by rw [hc, lpClosed_top t W hW1]; exact h2
      obtain ⟨r, hr, h3, h4⟩ := lpClosed_cover t W hW1 W.toNat i h1 hi
      have hr' : (r : Int) < W := by
        have : (r : Int) < (W.toNat : Nat) := by exact_mod_cast hr
        omega
      refine ⟨r, hr', ?_, ?_⟩
      · rw [hcl r hr']; exact h3
      · rw [hcl r hr']; exact h4
    · rintro ⟨r, hr, h1, h2⟩
      rw [hcl r hr] at h1 h2
      simp only at h1 h2
      have h0 := lpClosed_mono t W hW1 hWt 0 r
      rw [Nat.cast_zero, zero_add, lpClosed_zero t W hW1] at h0
      have hle := lpClosed_le t W ((r : Int) + 1)
      have hd0 : 0 ≤ (W - ((r : Int) + 1)) * ((t - 1) / W) :=
        mul_nonneg (by omega) (by have := base_pos t W hW1 hWt; omega)
      have hr0 : (0 : Int) ≤ r := Int.natCast_nonneg r
      omega

/-- Witness of C1 for `t = 8` on ten processes. -/
theorem C1_stage_partition_witness :
    comm_size 8 10 = min 10 (8 - 1) ∧
    (stage_handshake 8 (comm_size 8 10) 0).lp = 1 ∧
    (∀ r : Nat, (r : Int) + 1 < comm_size 8 10 →
      (stage_handshake 8 (comm_size 8 10) (r + 1)).lp =
        (stage_handshake 8 (comm_size 8 10) r).rp) ∧
    (stage_handshake 8 (comm_size 8 10) (comm_size 8 10 - 1).toNat).rp = 8 ∧
    (∀ r s : Nat, r < s → (s : Int) < comm_size 8 10 →
      (stage_handshake 8 (comm_size 8 10) r).rp ≤
        (stage_handshake 8 (comm_size 8 10) s).lp) ∧
    (∀ i : Int, (1 ≤ i ∧ i < 8) ↔
      ∃ r : Nat, (r : Int) < comm_size 8 10 ∧
        (stage_handshake 8 (comm_size 8 10) r).lp ≤ i ∧
        i < (stage_handshake 8 (comm_size 8 10) r).rp) :=
  C1_stage_partition 8 10 (by decide) (by decide)

/-- C6. For `t ≥ 2` and `1 ≤ W ≤ t-1`, the range of rank `r < W` has size
`(t-1)/W + 1` when `r < (t-1) mod W` and `(t-1)/W` otherwise, and starts at
`lp_r = 1 + r * ((t-1)/W) + min r ((t-1) mod W)`. -/
theorem C6_chunk_sizes (t W : Int) (ht : 2 ≤ t) (hW1 : 1 ≤ W) (hWt : W ≤ t - 1) (r : Nat)
    (hr : (r : Int) < W) :
    (stage_handshake t W r).rp - (stage_handshake t W r).lp =
      (if (r : Int) < (t - 1) % W then (t - 1) / W + 1 else (t - 1) / W) ∧
    (stage_handshake t W r).lp = 1 + r * ((t - 1) / W) + min (r : Int) ((t - 1) % W) := by
  have _ := ht
  rw [stage_handshake_closed t W hW1 hWt r hr]
  refine ⟨?_, rfl⟩
  simp only [lpClosed_succ, chunk]
  split_ifs <;> omega

/-- Witness of C6: `t = 8`, three workers, rank 1. -/
theorem C6_chunk_sizes_witness :
    (stage_handshake 8 3 1).rp - (stage_handshake 8 3 1).lp =
      (if ((1 : Nat) : Int) < (8 - 1) % 3 then (8 - 1) / 3 + 1 else (8 - 1) / 3) ∧
    (stage_handshake 8 3 1).lp = 1 + (1 : Nat) * ((8 - 1) / 3) + min ((1 : Nat) : Int) ((8 - 1) % 3) :=
  C6_chunk_sizes 8 3 (by decide) (by decide) (by decide) 1 (by decide)

/-! ## The two argmax scans -/

theorem scan_isFirstMax (f : Int → WithBot V) (lo hi : Int) (b0 : Best V) (hlo : 0 ≤ lo)
    (hle : lo ≤ hi) (h0 : IsFirstMax f lo b0) :
    IsFirstMax f hi (forLoop lo hi
      (fun k b => if f k > b.max then { max := f k, arg_max := k } else b) b0) := by
  refine forLoop_invariant (fun i b => IsFirstMax f i b) lo hi _ b0 hle h0 ?_
  intro i b hi1 _ hb
  obtain ⟨h1, h2, h3, h4, h5⟩ := hb
  by_cases hc : f i > b.max
  · simp only [hc, if_true]
    refine ⟨by show 0 ≤ i; omega, by simp, rfl, ?_, ?_⟩
    · intro k hk0 hk
      rcases (by omega : k < i ∨ k = i) with h | h
      · exact le_of_lt (lt_of_le_of_lt (h4 k hk0 h) hc)
      · rw [h]
    · intro k hk0 hk
      exact lt_of_le_of_lt (h4 k hk0 hk) hc
  · simp only [hc, if_false]
    refine ⟨h1, by omega, h3, ?_, h5⟩
    intro k hk0 hk
    rcases (by omega : k < i ∨ k = i) with h | h
    · exact h4 k hk0 h
    · rw [h]; exact not_lt.mp hc

theorem scan_from_unset (f : Int → WithBot V) (hi : Int) (hle : 0 ≤ hi) :
    IsFirstMax f hi (forLoop 0 hi
        (fun k b => if f k > b.max then { max := f k, arg_max := k } else b)
        { max := ⊥, arg_max := -1 }) ∨
      IsUnset f hi (forLoop 0 hi
        (fun k b => if f k > b.max then { max := f k, arg_max := k } else b)
        { max := ⊥, arg_max := -1 }) := by
  refine forLoop_invariant (fun i b => IsFirstMax f i b ∨ IsUnset f i b) 0 hi _ _ hle ?_ ?_
  · right
    exact ⟨rfl, rfl, fun k h1 h2 => by omega⟩
  · intro i b hi1 _ hb
    by_cases hc : f i > b.max
    · left
      simp only [hc, if_true]
      refine ⟨by show 0 ≤ i; omega, by simp, rfl, ?_, ?_⟩
      · intro k hk0 hk
        rcases (by omega : k < i ∨ k = i) with h | h
        · rcases hb with hb | hb
          · exact le_of_lt (lt_of_le_of_lt (hb.2.2.2.1 k hk0 h) hc)
          · rw [hb.2.2 k hk0 h]; exact bot_le
        · rw [h]
      · intro k hk0 hk
        rcases hb with hb | hb
        · exact lt_of_le_of_lt (hb.2.2.2.1 k hk0 hk) hc
        · rw [hb.2.2 k hk0 hk, ← hb.2.1]; exact hc
    · simp only [hc, if_false]
      rcases hb with hb | hb
      · left
        obtain ⟨h1, h2, h3, h4, h5⟩ := hb
        refine ⟨h1, by omega, h3, ?_, h5⟩
        intro k hk0 hk
        rcases (by omega : k < i ∨ k = i) with h | h
        · exact h4 k hk0 h
        · rw [h]; exact not_lt.mp hc
      · right
        refine ⟨hb.1, hb.2.1, ?_⟩
        intro k hk0 hk
        rcases (by omega : k < i ∨ k = i) with h | h
        · exact hb.2.2 k hk0 h
        · rw [h]
          have := not_lt.mp hc
          rw [hb.2.1] at this
          exact le_bot_iff.mp this

theorem terminal_isFirstMax (m : Hmm V) (dp1 : Int → Int → WithBot V) (hq : 1 ≤ m.q) :
    IsFirstMax (fun j => dp1 (m.t - 1) j) m.q (terminal m dp1) := by
  unfold terminal
  refine scan_isFirstMax (fun j => dp1 (m.t - 1) j) 1 m.q _ (by omega) hq ?_
  refine ⟨le_rfl, by simp, rfl, ?_, ?_⟩
  · intro k h0 h1
    have : k = 0 := by omega
    rw [this]
  · intro k h0 h1
    simp only at h1
    omega

theorem best_pred_scan (m : Hmm V) (dp1 : Int → Int → WithBot V) (i j : Int) (hq : 0 ≤ m.q) :
    IsFirstMax (cand m dp1 i j) m.q (best_pred m dp1 i j) ∨
      IsUnset (cand m dp1 i j) m.q (best_pred m dp1 i j) :=
  scan_from_unset (cand m dp1 i j) m.q hq

theorem terminal_bounds (m : Hmm V) (dp1 : Int → Int → WithBot V) (hq : 1 ≤ m.q) :
    0 ≤ (terminal m dp1).arg_max ∧ (terminal m dp1).arg_max < m.q :=
  ⟨(terminal_isFirstMax m dp1 hq).1, (terminal_isFirstMax m dp1 hq).2.1⟩

/-- C7. For `q ≥ 1` and any table `dp1`, the state chosen at the start of
backtracking is the lowest index `j` of `[0, q)` whose entry in row `t-1` is
greater than or equal to every entry of that row over `[0, q)`. -/
theorem C7_terminal_state (m : Hmm V) (dp1 : Int → Int → WithBot V) (hq : 1 ≤ m.q) :
    0 ≤ (terminal m dp1).arg_max ∧ (terminal m dp1).arg_max < m.q ∧
    (∀ j, 0 ≤ j → j < m.q → dp1 (m.t - 1) j ≤ dp1 (m.t - 1) (terminal m dp1).arg_max) ∧
    (∀ j, 0 ≤ j → j < m.q → (∀ k, 0 ≤ k → k < m.q → dp1 (m.t - 1) k ≤ dp1 (m.t - 1) j) →
      (terminal m dp1).arg_max ≤ j) := by
  obtain ⟨h1, h2, h3, h4, h5⟩ := terminal_isFirstMax m dp1 hq
  simp only at h3 h4 h5
  refine ⟨h1, h2, ?_, ?_⟩
  · intro j hj0 hj
    rw [← h3]
    exact h4 j hj0 hj
  · intro j hj0 _ hmax
    by_contra hlt
    have hlt : j < (terminal m dp1).arg_max := by omega
    have := h5 j hj0 hlt
    rw [h3] at this
    exact absurd (hmax _ h1 h2) (not_le.mpr this)

/-! ## Backtracking -/

theorem backPath_top (dp2 : Int → Int → Int) (hi a : Int) : backPath dp2 hi a hi = a :=
  forLoopDown_empty hi hi _ a le_rfl

theorem backPath_pred (dp2 : Int → Int → Int) (hi a i : Int) (h : i ≤ hi) :
    backPath dp2 hi a (i - 1) = dp2 i (backPath dp2 hi a i) :=
  forLoopDown_last hi i _ a h

theorem backPath_range (dp2 : Int → Int → Int) (q hi a i : Int) (h0 : 0 ≤ i) (h : i ≤ hi)
    (ha : 0 ≤ a ∧ a < q)
    (hdp2 : ∀ k j, 1 ≤ k → k ≤ hi → 0 ≤ j → j < q → 0 ≤ dp2 k j ∧ dp2 k j < q) :
    0 ≤ backPath dp2 hi a i ∧ backPath dp2 hi a i < q := by
  refine forLoopDown_invariant (fun _ s => 0 ≤ s ∧ s < q) hi i _ a h ha ?_
  intro k s hk1 hk2 hs
  exact hdp2 k s (by omega) hk2 hs.1 hs.2

theorem backtrack_spec (m : Hmm V) (dp2 : Int → Int → Int) (freshX : Int → Int) (a : Int)
    (ht : 1 ≤ m.t) (i : Int) (h0 : 0 ≤ i) (hi : i < m.t) :
    (backtrack m dp2 freshX a).X i = m.S (backPath dp2 (m.t - 1) a i) := by
  unfold backtrack
  by_cases h1 : m.t > 1
  · simp only [h1, if_true]
    have key := forLoopDown_invariant
      (fun (i : Int) (s : Back) => s.arg_max = backPath dp2 (m.t - 1) a i ∧
        ∀ k, i ≤ k → k ≤ m.t - 1 → s.X k = m.S (backPath dp2 (m.t - 1) a k))
      (m.t - 1) 0
      (fun i s => { arg_max := dp2 i s.arg_max, X := write1 s.X (i - 1) (m.S (dp2 i s.arg_max)) })
      { arg_max := a, X := write1 freshX (m.t - 1) (m.S a) } (by omega) ?_ ?_
    · exact key.2 i h0 (by omega)
    · refine ⟨(backPath_top dp2 _ a).symm, ?_⟩
      intro k hk1 hk2
      have : k = m.t - 1 := by omega
      rw [this, backPath_top]
      simp [write1]
    · intro j s hj1 hj2 hs
      have hp := backPath_pred dp2 (m.t - 1) a j hj2
      refine ⟨?_, ?_⟩
      · show dp2 j s.arg_max = _
        rw [hp, hs.1]
      · intro k hk1 hk2
        show write1 s.X (j - 1) (m.S (dp2 j s.arg_max)) k = _
        unfold write1
        by_cases hk : k = j - 1
        · rw [if_pos hk, hk, hp, hs.1]
        · rw [if_neg hk]
          exact hs.2 k (by omega) hk2
  · simp only [h1, if_false]
    have hi0 : i = m.t - 1 := by omega
    rw [hi0, backPath_top]
    simp [write1]

theorem print_arr_length (t : Int) (X : Int → Int) : (print_arr t X).length = t.toNat := by
  simp [print_arr]

theorem print_arr_congr (t : Int) (X X' : Int → Int) (h : ∀ i, 0 ≤ i → i < t → X i = X' i) :
    print_arr t X = print_arr t X' := by
  unfold print_arr
  apply List.map_congr_left
  intro a ha
  have := List.mem_range.mp ha
  exact h a (Int.natCast_nonneg a) (by omega)

/-- C8. For `t ≥ 1` and a backpointer table whose entries on the stages `1..t-1`
are indices of `[0, q)`, the emitted sequence has exactly `t` elements and there
are state indices `x_0 .. x_(t-1)` with `x_(t-1)` the selected terminal state,
`x_(i-1) = dp2[i][x_i]` for `i` in `1..t-1`, and `X[i] = S[x_i]` for every `i`;
when `q ≥ 1` every `x_i` is an index of `[0, q)`. -/
theorem C8_backtracking (m : Hmm V) (dp1 : Int → Int → WithBot V) (dp2 : Int → Int → Int)
    (freshX : Int → Int) (ht : 1 ≤ m.t)
    (hdp2 : ∀ i j, 1 ≤ i → i ≤ m.t - 1 → 0 ≤ j → j < m.q → 0 ≤ dp2 i j ∧ dp2 i j < m.q) :
    ((print_arr m.t (backtrack m dp2 freshX (terminal m dp1).arg_max).X).length : Int) = m.t ∧
    ∃ x : Int → Int,
      x (m.t - 1) = (terminal m dp1).arg_max ∧
      (∀ i, 1 ≤ i → i ≤ m.t - 1 → x (i - 1) = dp2 i (x i)) ∧
      (∀ i, 0 ≤ i → i < m.t →
        (backtrack m dp2 freshX (terminal m dp1).arg_max).X i = m.S (x i)) ∧
      print_arr m.t (backtrack m dp2 freshX (terminal m dp1).arg_max).X =
        print_arr m.t (fun i => m.S (x i)) ∧
      (1 ≤ m.q → ∀ i, 0 ≤ i → i < m.t → 0 ≤ x i ∧ x i < m.q) := by
  refine ⟨?_, backPath dp2 (m.t - 1) (terminal m dp1).arg_max, ?_, ?_, ?_, ?_, ?_⟩
  · rw [print_arr_length]
    omega
  · exact backPath_top _ _ _
  · intro i _ hi
    exact backPath_pred dp2 _ _ i hi
  · intro i h0 hi
    exact backtrack_spec m dp2 freshX _ ht i h0 hi
  · apply print_arr_congr
    intro i h0 hi
    exact backtrack_spec m dp2 freshX _ ht i h0 hi
  · intro hq i h0 hi
    exact backPath_range dp2 m.q _ _ i h0 (by omega) (terminal_bounds m dp1 hq) hdp2

/-! ## Forward phase -/

theorem forLoop_congr {σ : Type} (lo hi : Int) (body body' : Int → σ → σ) (s : σ)
    (h : ∀ i st, lo ≤ i → i < hi → body i st = body' i st) :
    forLoop lo hi body s = forLoop lo hi body' s := by
  by_cases hle : lo ≤ hi
  · refine forLoop_invariant (fun i st => st = forLoop lo i body' s) lo hi body s hle ?_ ?_
    · exact (forLoop_empty lo lo body' s le_rfl).symm
    · intro i st h1 h2 hst
      rw [forLoop_succ lo i body' s h1, ← hst]
      exact h i st h1 h2
  · rw [forLoop_empty lo hi body s (by omega), forLoop_empty lo hi body' s (by omega)]

theorem best_pred_eq (m : Hmm V) (dp1 : Int → Int → WithBot V) (i j : Int) :
    best_pred m dp1 i j = forLoop 0 m.q
      (fun k b => if cand m dp1 i j k > b.max then { max := cand m dp1 i j k, arg_max := k }
        else b) { max := ⊥, arg_max := -1 } := rfl

theorem best_pred_congr (m : Hmm V) (dp1 dp1' : Int → Int → WithBot V) (i j : Int)
    (h : ∀ k, 0 ≤ k → k < m.q → dp1 (i - 1) k = dp1' (i - 1) k) :
    best_pred m dp1 i j = best_pred m dp1' i j := by
  rw [best_pred_eq, best_pred_eq]
  apply forLoop_congr
  intro k b hk0 hk
  simp only [cand, h k hk0 hk]

/-- A loop over `j` that stores `f j` and `g j` in row `i` of the two tables. -/
theorem fill_row (q i : Int) (f : Int → WithBot V) (g : Int → Int) (tb : Tables V)
    (body : Int → Tables V → Tables V)
    (hbody : ∀ j st, 0 ≤ j → j < q → (∀ i' j', i' ≠ i → st.dp1 i' j' = tb.dp1 i' j') →
      body j st = { dp1 := write2 st.dp1 i j (f j), dp2 := write2 st.dp2 i j (g j) }) :
    forLoop 0 q body tb =
      { dp1 := fun i' j' => if i' = i ∧ 0 ≤ j' ∧ j' < q then f j' else tb.dp1 i' j',
        dp2 := fun i' j' => if i' = i ∧ 0 ≤ j' ∧ j' < q then g j' else tb.dp2 i' j' } := by
  by_cases hq : 0 ≤ q
  · refine forLoop_invariant (fun n st => st =
      { dp1 := fun i' j' => if i' = i ∧ 0 ≤ j' ∧ j' < n then f j' else tb.dp1 i' j',
        dp2 := fun i' j' => if i' = i ∧ 0 ≤ j' ∧ j' < n then g j' else tb.dp2 i' j' })
      0 q body tb hq ?_ ?_
    · ext i' j'
      · have : ¬ (i' = i ∧ 0 ≤ j' ∧ j' < 0) := by omega
        simp only [this, if_false]
      · have : ¬ (i' = i ∧ 0 ≤ j' ∧ j' < 0) := by omega
        simp only [this, if_false]
    · intro j st hj0 hj hst
      rw [hbody j st hj0 hj (by
        intro i' j' hne
        rw [hst]
        have : ¬ (i' = i ∧ 0 ≤ j' ∧ j' < j) := by tauto
        simp only [this, if_false])]
      rw [hst]
      ext i' j'
      · simp only [write2]
        by_cases h1 : i' = i ∧ j' = j
        · rw [if_pos h1, if_pos (by omega), h1.2]
        · rw [if_neg h1]
          by_cases h2 : i' = i ∧ 0 ≤ j' ∧ j' < j
          · rw [if_pos h2, if_pos (by omega)]
          · rw [if_neg h2, if_neg (by omega)]
      · simp only [write2]
        by_cases h1 : i' = i ∧ j' = j
        · rw [if_pos h1, if_pos (by omega), h1.2]
        · rw [if_neg h1]
          by_cases h2 : i' = i ∧ 0 ≤ j' ∧ j' < j
          · rw [if_pos h2, if_pos (by omega)]
          · rw [if_neg h2, if_neg (by omega)]
  · rw [forLoop_empty 0 q body tb (by omega)]
    ext i' j'
    · have : ¬ (i' = i ∧ 0 ≤ j' ∧ j' < q) := by omega
      simp only [this, if_false]
    · have : ¬ (i' = i ∧ 0 ≤ j' ∧ j' < q) := by omega
      simp only [this, if_false]

/-- Closed form of one stage of the forward phase. -/
theorem forward_stage_eq (m : Hmm V) (i : Int) (tb : Tables V) :
    forward_stage m i tb =
      { dp1 := fun i' j' =>
          if i' = i ∧ 0 ≤ j' ∧ j' < m.q then (best_pred m tb.dp1 i j').max else tb.dp1 i' j',
        dp2 := fun i' j' =>
          if i' = i ∧ 0 ≤ j' ∧ j' < m.q then (best_pred m tb.dp1 i j').arg_max
          else tb.dp2 i' j' } := by
  unfold forward_stage
  apply fill_row m.q i (fun j' => (best_pred m tb.dp1 i j').max)
    (fun j' => (best_pred m tb.dp1 i j').arg_max)
  intro j st _ _ hst
  have : best_pred m st.dp1 i j = best_pred m tb.dp1 i j :=
    best_pred_congr m st.dp1 tb.dp1 i j (fun k _ _ => hst (i - 1) k (by omega))
  simp only [this]

/-- After the forward phase over `[lp, rp)`, every owned cell holds the result of
the scan over the final row below it, and every other cell is untouched. -/
theorem forward_spec (m : Hmm V) (lp rp : Int) (tb : Tables V) :
    (∀ i j, lp ≤ i → i < rp → 0 ≤ j → j < m.q →
      (forward m lp rp tb).dp1 i j = (best_pred m (forward m lp rp tb).dp1 i j).max ∧
      (forward m lp rp tb).dp2 i j = (best_pred m (forward m lp rp tb).dp1 i j).arg_max) ∧
    (∀ i j, ¬ (lp ≤ i ∧ i < rp ∧ 0 ≤ j ∧ j < m.q) →
      (forward m lp rp tb).dp1 i j = tb.dp1 i j ∧ (forward m lp rp tb).dp2 i j = tb.dp2 i j) := by
  by_cases hle : lp ≤ rp
  · unfold forward
    refine forLoop_invariant (fun n st =>
      (∀ i j, lp ≤ i → i < n → 0 ≤ j → j < m.q →
        st.dp1 i j = (best_pred m st.dp1 i j).max ∧
        st.dp2 i j = (best_pred m st.dp1 i j).arg_max) ∧
      (∀ i j, ¬ (lp ≤ i ∧ i < n ∧ 0 ≤ j ∧ j < m.q) →
        st.dp1 i j = tb.dp1 i j ∧ st.dp2 i j = tb.dp2 i j))
      lp rp (forward_stage m) tb hle ?_ ?_
    · exact ⟨fun i j h1 h2 => by omega, fun i j _ => ⟨rfl, rfl⟩⟩
    · intro n st hn1 hn2 hst
      rw [forward_stage_eq]
      constructor
      · intro i j hi1 hi2 hj0 hj
        have hrow : best_pred m (fun i' j' =>
            if i' = n ∧ 0 ≤ j' ∧ j' < m.q then (best_pred m st.dp1 n j').max else st.dp1 i' j')
            i j = best_pred m st.dp1 i j := by
          apply best_pred_congr
          intro k _ _
          have : ¬ (i - 1 = n ∧ 0 ≤ k ∧ k < m.q) := by omega
          simp only [this, if_false]
        simp only [hrow]
        by_cases hin : i = n
        · subst hin
          simp only [hj0, hj, and_self, if_true]
        · have : ¬ (i = n ∧ 0 ≤ j ∧ j < m.q) := by tauto
          simp only [this, if_false]
          exact hst.1 i j hi1 (by omega) hj0 hj
      · intro i j hij
        have : ¬ (i = n ∧ 0 ≤ j ∧ j < m.q) := by omega
        simp only [this, if_false]
        exact hst.2 i j (by omega)
  · unfold forward
    rw [forLoop_empty lp rp _ tb (by omega)]
    exact ⟨fun i j h1 h2 => by omega, fun i j _ => ⟨rfl, rfl⟩⟩

theorem cand_ne_bot (m : Hmm V) (dp1 : Int → Int → WithBot V) (i j k : Int)
    (h1 : dp1 (i - 1) k ≠ ⊥) (h2 : m.A k j ≠ ⊥) (h3 : m.B j (m.Y i) ≠ ⊥) :
    cand m dp1 i j k ≠ ⊥ := by
  unfold cand
  simp only [ne_eq, WithBot.add_eq_bot, not_or]
  exact ⟨⟨h1, h2⟩, h3⟩

/-- With a finite candidate the scan of lines 111-121 ends on the first maximum. -/
theorem best_pred_isFirstMax (m : Hmm V) (dp1 : Int → Int → WithBot V) (i j : Int)
    (hq : 1 ≤ m.q) (h : cand m dp1 i j 0 ≠ ⊥) :
    IsFirstMax (cand m dp1 i j) m.q (best_pred m dp1 i j) := by
  rcases best_pred_scan m dp1 i j (by omega) with h1 | h1
  · exact h1
  · exact absurd (h1.2.2 0 le_rfl (by omega)) h

/-- Finite inputs keep every row of the forward phase finite. -/
theorem forward_finite (m : Hmm V) (lp rp : Int) (tb : Tables V) (hq : 1 ≤ m.q)
    (hA : ∀ k j, 0 ≤ k → k < m.q → 0 ≤ j → j < m.q → m.A k j ≠ ⊥)
    (hB : ∀ i j, lp ≤ i → i < rp → 0 ≤ j → j < m.q → m.B j (m.Y i) ≠ ⊥)
    (hrow : ∀ k, 0 ≤ k → k < m.q → tb.dp1 (lp - 1) k ≠ ⊥) (i : Int) (hi1 : lp - 1 ≤ i)
    (hi2 : i < rp) : ∀ j, 0 ≤ j → j < m.q → (forward m lp rp tb).dp1 i j ≠ ⊥ := by
  obtain ⟨hown, hframe⟩ := forward_spec m lp rp tb
  refine int_up_induction
    (fun i => i < rp → ∀ j, 0 ≤ j → j < m.q → (forward m lp rp tb).dp1 i j ≠ ⊥)
    (lp - 1) ?_ ?_ i hi1 hi2
  · intro _ j hj0 hj
    rw [(hframe (lp - 1) j (by omega)).1]
    exact hrow j hj0 hj
  · intro n hn ih hn2 j hj0 hj
    have ih := ih (by omega)
    have hc : cand m (forward m lp rp tb).dp1 (n + 1) j 0 ≠ ⊥ :=
      cand_ne_bot m _ (n + 1) j 0 (by rw [add_sub_cancel_right]; exact ih 0 le_rfl (by omega))
        (hA 0 j le_rfl (by omega) hj0 hj) (hB (n + 1) j (by omega) hn2 hj0 hj)
    obtain ⟨h1, h2, h3, -, -⟩ := best_pred_isFirstMax m _ (n + 1) j hq hc
    rw [(hown (n + 1) j (by omega) hn2 hj0 hj).1, h3]
    exact cand_ne_bot m _ (n + 1) j _ (by rw [add_sub_cancel_right]; exact ih _ h1 h2)
      (hA _ j h1 h2 hj0 hj) (hB (n + 1) j (by omega) hn2 hj0 hj)

/-- The forward phase on finite inputs: every owned cell of `dp1` and `dp2` holds
the first maximum of the candidates over the final row below it. -/
theorem forward_isFirstMax (m : Hmm V) (lp rp : Int) (tb : Tables V) (hq : 1 ≤ m.q)
    (hA : ∀ k j, 0 ≤ k → k < m.q → 0 ≤ j → j < m.q → m.A k j ≠ ⊥)
    (hB : ∀ i j, lp ≤ i → i < rp → 0 ≤ j → j < m.q → m.B j (m.Y i) ≠ ⊥)
    (hrow : ∀ k, 0 ≤ k → k < m.q → tb.dp1 (lp - 1) k ≠ ⊥) (i j : Int) (hi1 : lp ≤ i)
    (hi2 : i < rp) (hj0 : 0 ≤ j) (hj : j < m.q) :
    IsFirstMax (cand m (forward m lp rp tb).dp1 i j) m.q
      { max := (forward m lp rp tb).dp1 i j, arg_max := (forward m lp rp tb).dp2 i j } := by
  obtain ⟨hown, -⟩ := forward_spec m lp rp tb
  have hfin := forward_finite m lp rp tb hq hA hB hrow (i - 1) (by omega) (by omega)
  have hc : cand m (forward m lp rp tb).dp1 i j 0 ≠ ⊥ :=
    cand_ne_bot m _ i j 0 (hfin 0 le_rfl (by omega)) (hA 0 j le_rfl (by omega) hj0 hj)
      (hB i j hi1 hi2 hj0 hj)
  have h := best_pred_isFirstMax m (forward m lp rp tb).dp1 i j hq hc
  rw [(hown i j hi1 hi2 hj0 hj).1, (hown i j hi1 hi2 hj0 hj).2]
  exact h

/-- Lines 32-44 fill every cell of `[0, t) × [0, q)` and no other. -/
theorem init_tables_spec (m : Hmm V) (fresh : Tables V) (rand : Int → Int → WithBot V) :
    (∀ i j, 0 ≤ i → i < m.t → 0 ≤ j → j < m.q →
      (init_tables m fresh rand).dp1 i j =
        (if i = 0 then m.I j + m.B j (m.Y 0) else rand i j) ∧
      (init_tables m fresh rand).dp2 i j = 0) ∧
    (∀ i j, ¬ (0 ≤ i ∧ i < m.t ∧ 0 ≤ j ∧ j < m.q) →
      (init_tables m fresh rand).dp1 i j = fresh.dp1 i j ∧
      (init_tables m fresh rand).dp2 i j = fresh.dp2 i j) := by
  have hrow : ∀ (i : Int) (tb : Tables V),
      forLoop 0 m.q (fun j tb =>
        if i = 0 then
          { dp1 := write2 tb.dp1 0 j (m.I j + m.B j (m.Y 0)), dp2 := write2 tb.dp2 0 j 0 }
        else
          ({ dp1 := write2 tb.dp1 i j (rand i j), dp2 := write2 tb.dp2 i j 0 } : Tables V)) tb =
      { dp1 := fun i' j' => if i' = i ∧ 0 ≤ j' ∧ j' < m.q then
          (if i = 0 then m.I j' + m.B j' (m.Y 0) else rand i j') else tb.dp1 i' j',
        dp2 := fun i' j' => if i' = i ∧ 0 ≤ j' ∧ j' < m.q then 0 else tb.dp2 i' j' } := by
    intro i tb
    apply fill_row m.q i (fun j' => if i = 0 then m.I j' + m.B j' (m.Y 0) else rand i j')
      (fun _ => 0)
    intro j st _ _ _
    by_cases h : i = 0
    · subst h
      simp only [if_true]
    · simp only [h, if_false]
  by_cases hle : 0 ≤ m.t
  · unfold init_tables
    refine forLoop_invariant (fun n st =>
      (∀ i j, 0 ≤ i → i < n → 0 ≤ j → j < m.q →
        st.dp1 i j = (if i = 0 then m.I j + m.B j (m.Y 0) else rand i j) ∧ st.dp2 i j = 0) ∧
      (∀ i j, ¬ (0 ≤ i ∧ i < n ∧ 0 ≤ j ∧ j < m.q) →
        st.dp1 i j = fresh.dp1 i j ∧ st.dp2 i j = fresh.dp2 i j))
      0 m.t _ fresh hle ?_ ?_
    · exact ⟨fun i j h1 h2 => by omega, fun i j _ => ⟨rfl, rfl⟩⟩
    · intro n st hn1 hn2 hst
      have hr := hrow n st
      simp only at hr ⊢
      rw [hr]
      constructor
      · intro i j hi1 hi2 hj0 hj
        by_cases hin : i = n
        · subst hin
          simp only [hj0, hj, and_self, if_true]
        · have : ¬ (i = n ∧ 0 ≤ j ∧ j < m.q) := by tauto
          simp only [this, if_false]
          exact hst.1 i j hi1 (by omega) hj0 hj
      · intro i j hij
        have : ¬ (i = n ∧ 0 ≤ j ∧ j < m.q) := by omega
        simp only [this, if_false]
        exact hst.2 i j (by omega)
  · unfold init_tables
    rw [forLoop_empty 0 m.t _ fresh (by omega)]
    exact ⟨fun i j h1 h2 => by omega, fun i j _ => ⟨rfl, rfl⟩⟩

/-! ## The single worker -/

theorem stage_handshake_single (t : Int) (ht : 2 ≤ t) :
    stage_handshake t 1 0 = { lp := 1, rp := t, stages_left := 0 } := by
  have h := stage_handshake_closed t 1 le_rfl (by omega) 0 (by decide)
  rw [h]
  have h0 : lpClosed t 1 ((0 : Nat) : Int) = 1 := by
    rw [Nat.cast_zero]; exact lpClosed_zero t 1 le_rfl
  have h1 : lpClosed t 1 (((0 : Nat) : Int) + 1) = t := by
    rw [Nat.cast_zero, zero_add]; exact lpClosed_top t 1 le_rfl
  rw [h0, h1, sub_self]

/-- The tables of the single worker after lines 25-126. -/
theorem start_worker_single (m : Hmm V) (env : Env V) (ht : 2 ≤ m.t) :
    (start_worker m env 1 0).dp1 =
        (forward m 1 m.t (init_tables m (env.fresh 0) (env.rand 0))).dp1 ∧
      (start_worker m env 1 0).dp2 =
        (forward m 1 m.t (init_tables m (env.fresh 0) (env.rand 0))).dp2 := by
  unfold start_worker
  simp only [stage_handshake_single m.t ht, Nat.cast_zero, and_self]

/-! ## Path scores -/

theorem pathScore_zero (m : Hmm V) (x : Int → Int) :
    pathScore m x 0 = m.I (x 0) + m.B (x 0) (m.Y 0) := by
  unfold pathScore
  rw [zero_add, Finset.Ico_self, Finset.sum_empty, add_zero]

theorem pathScore_succ (m : Hmm V) (x : Int → Int) (i : Int) (hi : 0 ≤ i) :
    pathScore m x (i + 1) =
      pathScore m x i + m.A (x i) (x (i + 1)) + m.B (x (i + 1)) (m.Y (i + 1)) := by
  unfold pathScore
  have hset : Finset.Ico (1 : Int) (i + 1 + 1) = insert (i + 1) (Finset.Ico (1 : Int) (i + 1)) := by
    ext k
    simp only [Finset.mem_Ico, Finset.mem_insert]
    omega
  have hnot : (i + 1) ∉ Finset.Ico (1 : Int) (i + 1) := by
    simp only [Finset.mem_Ico, not_and, not_lt]
    intro _
    exact le_rfl
  rw [hset, Finset.sum_insert hnot, add_sub_cancel_right]
  abel

theorem pathScore_congr (m : Hmm V) (x y : Int → Int) (i : Int)
    (h : ∀ k, 0 ≤ k → k ≤ i → x k = y k) (hi : 0 ≤ i) : pathScore m x i = pathScore m y i := by
  unfold pathScore
  rw [h 0 le_rfl hi]
  congr 1
  apply Finset.sum_congr rfl
  intro k hk
  have hk' := Finset.mem_Ico.mp hk
  rw [h k (by omega) (by omega), h (k - 1) (by omega) (by omega)]

/-- Extending a path by one state adds one transition and one emission. -/
theorem pathScore_extend (m : Hmm V) (x : Int → Int) (i j : Int) (hi : 0 ≤ i) :
    pathScore m (write1 x (i + 1) j) (i + 1) =
      pathScore m x i + m.A (x i) j + m.B j (m.Y (i + 1)) := by
  rw [pathScore_succ m _ i hi]
  have h1 : write1 x (i + 1) j (i + 1) = j := by simp [write1]
  have h2 : write1 x (i + 1) j i = x i := by
    unfold write1
    rw [if_neg (by omega)]
  rw [h1, h2]
  congr 2
  apply pathScore_congr m _ _ i _ hi
  intro k _ hk
  unfold write1
  rw [if_neg (by omega)]

/-! ## Meaning of the best-probability table -/

/-- A table that starts from the exact row 0 and satisfies the max-plus
recurrence on the stages `1..n` holds, at every stage up to `n`, the best score of
a path ending in the given state. -/
theorem table_is_best (m : Hmm V) (d : Int → Int → WithBot V) (n : Int)
    (h0 : ∀ j, 0 ≤ j → j < m.q → d 0 j = m.I j + m.B j (m.Y 0))
    (hrec : ∀ i j, 1 ≤ i → i ≤ n → 0 ≤ j → j < m.q →
      IsFirstMax (cand m d i j) m.q (best_pred m d i j) ∨
        IsUnset (cand m d i j) m.q (best_pred m d i j))
    (hd : ∀ i j, 1 ≤ i → i ≤ n → 0 ≤ j → j < m.q → d i j = (best_pred m d i j).max)
    (i : Int) (hi0 : 0 ≤ i) (hin : i ≤ n) :
    ∀ j, 0 ≤ j → j < m.q →
      (∃ x, IsPath m.q x i ∧ x i = j ∧ d i j = pathScore m x i) ∧
      (∀ x, IsPath m.q x i → x i = j → pathScore m x i ≤ d i j) := by
  refine int_up_induction
    (fun i => i ≤ n → ∀ j, 0 ≤ j → j < m.q →
      (∃ x, IsPath m.q x i ∧ x i = j ∧ d i j = pathScore m x i) ∧
      (∀ x, IsPath m.q x i → x i = j → pathScore m x i ≤ d i j))
    0 ?_ ?_ i hi0 hin
  · intro _ j hj0 hj
    constructor
    · refine ⟨fun _ => j, ?_, rfl, ?_⟩
      · intro k _ _
        exact ⟨hj0, hj⟩
      · rw [pathScore_zero, h0 j hj0 hj]
    · intro x _ hxj
      rw [pathScore_zero, hxj, h0 j hj0 hj]
  · intro i hi ih hin j hj0 hj
    have ih := ih (by omega)
    have hupper : ∀ x, IsPath m.q x (i + 1) → x (i + 1) = j →
        pathScore m x (i + 1) ≤ d (i + 1) j := by
      intro x hx hxj
      have hxi := hx i hi (by omega)
      have hprev : pathScore m x i ≤ d i (x i) :=
        (ih (x i) hxi.1 hxi.2).2 x (fun k hk0 hk => hx k hk0 (by omega)) rfl
      have hcand : cand m d (i + 1) j (x i) ≤ d (i + 1) j := by
        rw [hd (i + 1) j (by omega) hin hj0 hj]
        rcases hrec (i + 1) j (by omega) hin hj0 hj with h | h
        · exact h.2.2.2.1 (x i) hxi.1 hxi.2
        · rw [h.2.2 (x i) hxi.1 hxi.2]; exact bot_le
      rw [pathScore_succ m x i hi, hxj]
      refine le_trans ?_ hcand
      unfold cand
      rw [add_sub_cancel_right]
      exact add_le_add_right (add_le_add_right hprev _) _
    refine ⟨?_, hupper⟩
    rcases hrec (i + 1) j (by omega) hin hj0 hj with h | h
    · obtain ⟨hk0, hk, hmax, -, -⟩ := h
      obtain ⟨x, hx, hxk, hxs⟩ := (ih _ hk0 hk).1
      refine ⟨write1 x (i + 1) j, ?_, by simp [write1], ?_⟩
      · intro k hk0' hk'
        unfold write1
        by_cases hki : k = i + 1
        · rw [if_pos hki]; exact ⟨hj0, hj⟩
        · rw [if_neg hki]; exact hx k hk0' (by omega)
      · rw [pathScore_extend m x i j hi, hd (i + 1) j (by omega) hin hj0 hj, hmax, ← hxs, hxk]
        unfold cand
        rw [add_sub_cancel_right]
    · obtain ⟨x, hx, hxk, -⟩ := (ih j hj0 hj).1
      have hpath : IsPath m.q (write1 x (i + 1) j) (i + 1) := by
        intro k hk0' hk'
        unfold write1
        by_cases hki : k = i + 1
        · rw [if_pos hki]; exact ⟨hj0, hj⟩
        · rw [if_neg hki]; exact hx k hk0' (by omega)
      have hend : write1 x (i + 1) j (i + 1) = j := by simp [write1]
      refine ⟨write1 x (i + 1) j, hpath, hend, ?_⟩
      have hle := hupper _ hpath hend
      have hbot : d (i + 1) j = ⊥ := by
        rw [hd (i + 1) j (by omega) hin hj0 hj]; exact h.2.1
      rw [hbot] at hle ⊢
      exact (le_bot_iff.mp hle).symm

theorem single_row_zero (m : Hmm V) (env : Env V) (ht : 2 ≤ m.t) (j : Int) (hj0 : 0 ≤ j)
    (hj : j < m.q) : (start_worker m env 1 0).dp1 0 j = m.I j + m.B j (m.Y 0) := by
  rw [(start_worker_single m env ht).1,
    ((forward_spec m 1 m.t _).2 0 j (by omega)).1,
    ((init_tables_spec m (env.fresh 0) (env.rand 0)).1 0 j le_rfl (by omega) hj0 hj).1]
  simp

theorem single_row_succ (m : Hmm V) (env : Env V) (ht : 2 ≤ m.t) (i j : Int) (hi1 : 1 ≤ i)
    (hi : i ≤ m.t - 1) (hj0 : 0 ≤ j) (hj : j < m.q) :
    (start_worker m env 1 0).dp1 i j = (best_pred m (start_worker m env 1 0).dp1 i j).max ∧
    (start_worker m env 1 0).dp2 i j =
      (best_pred m (start_worker m env 1 0).dp1 i j).arg_max := by
  rw [(start_worker_single m env ht).1, (start_worker_single m env ht).2]
  exact (forward_spec m 1 m.t _).1 i j hi1 (by omega) hj0 hj

theorem single_table_upper (m : Hmm V) (env : Env V) (ht : 2 ≤ m.t) (i j : Int) (hi0 : 0 ≤ i)
    (hi : i < m.t) (hj0 : 0 ≤ j) (hj : j < m.q) :
    ∀ x, IsPath m.q x i → x i = j → pathScore m x i ≤ (start_worker m env 1 0).dp1 i j :=
  (table_is_best m (start_worker m env 1 0).dp1 (m.t - 1)
    (fun j hj0 hj => single_row_zero m env ht j hj0 hj)
    (fun i j _ _ _ _ => best_pred_scan m _ i j (by omega))
    (fun i j hi1 hi hj0 hj => (single_row_succ m env ht i j hi1 hi hj0 hj).1)
    i hi0 (by omega) j hj0 hj).2

/-- C4. In a single-worker run (`t ≥ 2`), after initialisation and the forward
phase, for every stage `i` of `[0, t)` and state `j` of `[0, q)` the entry
`dp1[i][j]` is the maximum over all state paths `x_0 .. x_i` with `x_i = j` of
`I[x_0] + B[x_0][Y[0]] + Σ_(k=1..i) (A[x_(k-1)][x_k] + B[x_k][Y[k]])`: some such
path has that score and none has a greater one. In particular
`dp1[0][j] = I[j] + B[j][Y[0]]`. -/
theorem C4_dp1_meaning (m : Hmm V) (env : Env V) (ht : 2 ≤ m.t) (i j : Int) (hi0 : 0 ≤ i)
    (hi : i < m.t) (hj0 : 0 ≤ j) (hj : j < m.q) :
    (∃ x, IsPath m.q x i ∧ x i = j ∧ (start_worker m env 1 0).dp1 i j = pathScore m x i) ∧
    (∀ x, IsPath m.q x i → x i = j → pathScore m x i ≤ (start_worker m env 1 0).dp1 i j) ∧
    (start_worker m env 1 0).dp1 0 j = m.I j + m.B j (m.Y 0) := by
  have h := table_is_best m (start_worker m env 1 0).dp1 (m.t - 1)
    (fun j hj0 hj => single_row_zero m env ht j hj0 hj)
    (fun i j _ _ _ _ => best_pred_scan m _ i j (by omega))
    (fun i j hi1 hi hj0 hj => (single_row_succ m env ht i j hi1 hi hj0 hj).1)
    i hi0 (by omega) j hj0 hj
  exact ⟨h.1, h.2, single_row_zero m env ht j hj0 hj⟩

/-! ## The single-worker run of `viterbi` -/

theorem fixup_round_zero (m : Hmm V) (ws : Nat → Worker V) :
    fixup_round m ws 0 = { ws 0 with local_converged := 1 } := by
  simp [fixup_round, round_recv]

theorem fixup_loop_single (m : Hmm V) (fuel : Nat) (ws : Nat → Worker V) :
    fixup_loop m 1 (fuel + 1) ws = some (1, fun r => fixup_round m ws r) := by
  have h : allreduce_land 1 (fun r => fixup_round m ws r) = 1 := by
    simp [allreduce_land, fixup_round_zero]
  simp only [fixup_loop, h]
  simp

theorem comm_size_eq (t world_size : Int) :
    (if world_size ≥ t - 1 then t - 1 else world_size) = comm_size t world_size := rfl

theorem comm_size_single (t : Int) (ht : 2 ≤ t) : comm_size t 1 = 1 := by
  unfold comm_size
  split_ifs <;> omega

/-- With one process and `t ≥ 2`, every positive round bound lets `viterbi` finish:
one fixup round, then the output backtracked from the tables of the forward
phase. -/
theorem viterbi_single (m : Hmm V) (env : Env V) (fuel : Nat) (ht : 2 ≤ m.t) :
    viterbi (fuel + 1) m env 1 0 =
      ProcEnd.done 1
        { start_worker m env 1 0 with local_converged := 1 }
        (some (print_arr m.t (backtrack m (start_worker m env 1 0).dp2 env.freshX
          (terminal m (start_worker m env 1 0).dp1).arg_max).X)) := by
  unfold viterbi
  simp only [comm_size_eq, comm_size_single m.t ht, fixup_loop_single]
  simp [backwards, gather, fixup_round_zero]

/-- On finite inputs the tables of the single worker hold first maxima on every
stage of `1..t-1`. -/
theorem single_isFirstMax (m : Hmm V) (env : Env V) (hq : 1 ≤ m.q) (ht : 2 ≤ m.t)
    (hI : ∀ j, 0 ≤ j → j < m.q → m.I j ≠ ⊥)
    (hA : ∀ k j, 0 ≤ k → k < m.q → 0 ≤ j → j < m.q → m.A k j ≠ ⊥)
    (hB : ∀ j o, 0 ≤ j → j < m.q → 0 ≤ o → o < m.n → m.B j o ≠ ⊥)
    (hY : ∀ i, 0 ≤ i → i < m.t → 0 ≤ m.Y i ∧ m.Y i < m.n)
    (i j : Int) (hi1 : 1 ≤ i) (hi : i < m.t) (hj0 : 0 ≤ j) (hj : j < m.q) :
    IsFirstMax (cand m (start_worker m env 1 0).dp1 i j) m.q
      { max := (start_worker m env 1 0).dp1 i j, arg_max := (start_worker m env 1 0).dp2 i j } := by
  rw [(start_worker_single m env ht).1, (start_worker_single m env ht).2]
  refine forward_isFirstMax m 1 m.t _ hq hA ?_ ?_ i j hi1 hi hj0 hj
  · intro i' j' h1 h2 h3 h4
    exact hB j' _ h3 h4 (hY i' (by omega) h2).1 (hY i' (by omega) h2).2
  · intro k hk0 hk
    rw [sub_self,
      ((init_tables_spec m (env.fresh 0) (env.rand 0)).1 0 k le_rfl (by omega) hk0 hk).1]
    simp only [if_true, ne_eq, WithBot.add_eq_bot, not_or]
    exact ⟨hI k hk0 hk, hB k _ hk0 hk (hY 0 le_rfl (by omega)).1 (hY 0 le_rfl (by omega)).2⟩

/-- C2. For `q ≥ 1`, `t ≥ 2`, observations in `[0, n)` and finite
log-probabilities, `viterbi` run by a single process (any positive bound on the
number of fixup rounds) prints `S[x_0], ..., S[x_(t-1)]` for a state path `x`
whose total score is greater than or equal to the score of every state path of
length `t`. -/
theorem C2_single_worker_optimal (m : Hmm V) (env : Env V) (fuel : Nat) (hq : 1 ≤ m.q)
    (ht : 2 ≤ m.t)
    (hI : ∀ j, 0 ≤ j → j < m.q → m.I j ≠ ⊥)
    (hA : ∀ k j, 0 ≤ k → k < m.q → 0 ≤ j → j < m.q → m.A k j ≠ ⊥)
    (hB : ∀ j o, 0 ≤ j → j < m.q → 0 ≤ o → o < m.n → m.B j o ≠ ⊥)
    (hY : ∀ i, 0 ≤ i → i < m.t → 0 ≤ m.Y i ∧ m.Y i < m.n) :
    ∃ x : Int → Int, IsPath m.q x (m.t - 1) ∧
      (∃ w, viterbi (fuel + 1) m env 1 0 =
        ProcEnd.done 1 w (some (print_arr m.t (fun i => m.S (x i))))) ∧
      ∀ y, IsPath m.q y (m.t - 1) → pathScore m y (m.t - 1) ≤ pathScore m x (m.t - 1) := by
  have hfm := single_isFirstMax m env hq ht hI hA hB hY
  have hterm := terminal_isFirstMax m (start_worker m env 1 0).dp1 hq
  have hpath : ∀ i, 0 ≤ i → i ≤ m.t - 1 →
      0 ≤ backPath (start_worker m env 1 0).dp2 (m.t - 1)
        (terminal m (start_worker m env 1 0).dp1).arg_max i ∧
      backPath (start_worker m env 1 0).dp2 (m.t - 1)
        (terminal m (start_worker m env 1 0).dp1).arg_max i < m.q := by
    intro i hi0 hi
    refine backPath_range _ m.q _ _ i hi0 hi ⟨hterm.1, hterm.2.1⟩ ?_
    intro k j hk1 hk hj0 hj
    exact ⟨(hfm k j hk1 (by omega) hj0 hj).1, (hfm k j hk1 (by omega) hj0 hj).2.1⟩
  have hscore : ∀ i, 0 ≤ i → i ≤ m.t - 1 →
      pathScore m (backPath (start_worker m env 1 0).dp2 (m.t - 1)
        (terminal m (start_worker m env 1 0).dp1).arg_max) i =
      (start_worker m env 1 0).dp1 i
        (backPath (start_worker m env 1 0).dp2 (m.t - 1)
          (terminal m (start_worker m env 1 0).dp1).arg_max i) := by
    intro i hi0
    refine int_up_induction (fun i => i ≤ m.t - 1 →
      pathScore m (backPath (start_worker m env 1 0).dp2 (m.t - 1)
        (terminal m (start_worker m env 1 0).dp1).arg_max) i =
      (start_worker m env 1 0).dp1 i
        (backPath (start_worker m env 1 0).dp2 (m.t - 1)
          (terminal m (start_worker m env 1 0).dp1).arg_max i)) 0 ?_ ?_ i hi0
    · intro h
      have hp := hpath 0 le_rfl h
      rw [pathScore_zero, single_row_zero m env ht _ hp.1 hp.2]
    · intro n hn ih hn1
      have hp := hpath (n + 1) (by omega) hn1
      have hback := backPath_pred (start_worker m env 1 0).dp2 (m.t - 1)
        (terminal m (start_worker m env 1 0).dp1).arg_max (n + 1) hn1
      rw [add_sub_cancel_right] at hback
      have hmax := (hfm (n + 1) _ (by omega) (by omega) hp.1 hp.2).2.2.1
      simp only [cand, add_sub_cancel_right] at hmax
      rw [pathScore_succ m _ n hn, ih (by omega), hmax, ← hback]
  refine ⟨backPath (start_worker m env 1 0).dp2 (m.t - 1)
    (terminal m (start_worker m env 1 0).dp1).arg_max, hpath,
    ⟨{ start_worker m env 1 0 with local_converged := 1 }, ?_⟩, ?_⟩
  · rw [viterbi_single m env fuel ht]
    congr 2
    apply print_arr_congr
    intro i hi0 hi
    exact backtrack_spec m _ env.freshX _ (by omega) i hi0 hi
  · intro y hy
    have hyl := hy (m.t - 1) (by omega) le_rfl
    have h1 := (single_table_upper m env ht (m.t - 1) (y (m.t - 1)) (by omega) (by omega) hyl.1 hyl.2)
      y hy rfl
    have h2 := hterm.2.2.2.1 (y (m.t - 1)) hyl.1 hyl.2
    rw [hterm.2.2.1] at h2
    simp only at h2
    rw [hscore (m.t - 1) (by omega) le_rfl, backPath_top]
    exact le_trans h1 h2

/-! ## Worker cap, exclusion and the case `t = 1` -/

theorem comm_size_cap (t world_size : Int) : comm_size t world_size = min world_size (t - 1) := by
  unfold comm_size
  split_ifs with h
  · exact (min_eq_right h).symm
  · exact (min_eq_left (by omega)).symm

theorem viterbi_excluded_iff (m : Hmm V) (env : Env V) (fuel : Nat) (world_size world_rank : Int)
    (hr : 0 ≤ world_rank) :
    viterbi fuel m env world_size world_rank = ProcEnd.excluded ↔
      comm_size m.t world_size ≤ world_rank := by
  unfold viterbi
  simp only [comm_size_eq]
  by_cases h : world_rank < comm_size m.t world_size
  · have hmem : ¬ ¬ (0 ≤ world_rank ∧ world_rank < comm_size m.t world_size) :=
      not_not.mpr ⟨hr, h⟩
    rw [if_neg hmem]
    constructor
    · intro hex
      exfalso
      revert hex
      cases fixup_loop m (comm_size m.t world_size) fuel
        (start_worker m env (comm_size m.t world_size)) with
      | none => simp
      | some p => simp only; split_ifs <;> simp
    · intro hle
      omega
  · have hmem : ¬ (0 ≤ world_rank ∧ world_rank < comm_size m.t world_size) := fun hh => h hh.2
    rw [if_pos hmem]
    simp only [true_iff]
    omega

/-- C9. For `t ≥ 2` and `world_size ≥ 1` the computation group has
`W = min world_size (t-1)` workers: a process of world rank `r` in
`[0, world_size)` jumps to `terminate` without running stage assignment, the
forward phase, a fixup round or the backwards phase exactly when `r ≥ W`. -/
theorem C9_worker_cap (m : Hmm V) (env : Env V) (fuel : Nat) (world_size world_rank : Int)
    (ht : 2 ≤ m.t) (hws : 1 ≤ world_size) (hr : 0 ≤ world_rank) (hrw : world_rank < world_size) :
    comm_size m.t world_size = min world_size (m.t - 1) ∧
    1 ≤ comm_size m.t world_size ∧
    (viterbi fuel m env world_size world_rank = ProcEnd.excluded ↔
      min world_size (m.t - 1) ≤ world_rank) := by
  have _ := hrw
  refine ⟨comm_size_cap _ _, ?_, ?_⟩
  · rw [comm_size_cap]
    exact le_min hws (by omega)
  · rw [← comm_size_cap]
    exact viterbi_excluded_iff m env fuel world_size world_rank hr

/-- Witness of C9: process 3 of 5 on the three-observation model. -/
theorem C9_worker_cap_witness :
    comm_size demoHmm.t 5 = min 5 (demoHmm.t - 1) ∧
    1 ≤ comm_size demoHmm.t 5 ∧
    (viterbi 4 demoHmm demoEnv 5 3 = ProcEnd.excluded ↔ min 5 (demoHmm.t - 1) ≤ 3) :=
  C9_worker_cap demoHmm demoEnv 4 5 3 (by decide) (by decide) (by decide) (by decide)

/-- With `t = 1` the group is empty: every process jumps to `terminate`. -/
theorem viterbi_one_stage (m : Hmm V) (env : Env V) (fuel : Nat) (world_size world_rank : Int)
    (ht : m.t = 1) (hws : 1 ≤ world_size) :
    viterbi fuel m env world_size world_rank = ProcEnd.excluded := by
  unfold viterbi
  simp only [comm_size_eq]
  have h : comm_size m.t world_size = 0 := by
    unfold comm_size
    rw [ht]
    split_ifs <;> omega
  rw [h, if_pos (by omega)]

/-- C10 (code behaviour at the failing input). With `t = 1` and three processes,
rank 0 prints nothing and completes no fixup round: like every other process it
is excluded from the group. -/
theorem C10_single_stage_no_output :
    viterbi 4 { demoHmm with t := 1 } demoEnv 3 0 = ProcEnd.excluded ∧
    (viterbi 4 { demoHmm with t := 1 } demoEnv 3 0).printed = none ∧
    (viterbi 4 { demoHmm with t := 1 } demoEnv 3 1) = ProcEnd.excluded ∧
    (viterbi 4 { demoHmm with t := 1 } demoEnv 3 2) = ProcEnd.excluded := by
  have h := fun r => viterbi_one_stage { demoHmm with t := 1 } demoEnv 4 3 r rfl (by decide)
  refine ⟨h 0, ?_, h 1, h 2⟩
  rw [h 0]
  rfl

/-! ## Two workers against one -/

/-- C3 (code behaviour at the failing input). On `ratHmm` the single-worker run
prints `[1, 1, 1]`; the run with two workers (which is also `t-1` workers)
converges after two fixup rounds and prints `[1, 1, 0]`: rank 0 picks the
terminal state from its own row `dp1[t-1]`, which still holds the placeholders
of line 40. -/
theorem C3_two_workers_differ :
    (viterbi 4 ratHmm ratEnv 1 0).printed = some [1, 1, 1] ∧
    (viterbi 4 ratHmm ratEnv 2 0).rounds = some 2 ∧
    (viterbi 4 ratHmm ratEnv 2 0).printed = some [1, 1, 0] := by
  refine ⟨?_, ?_, ?_⟩ <;> decide!

/-! ## The theorems on the concrete model -/

theorem demoHmm_I_finite : ∀ j, 0 ≤ j → j < demoHmm.q → demoHmm.I j ≠ ⊥ := by
  intro j _ _
  simp only [demoHmm]
  split_ifs <;> exact WithBot.coe_ne_bot

theorem demoHmm_A_finite :
    ∀ k j, 0 ≤ k → k < demoHmm.q → 0 ≤ j → j < demoHmm.q → demoHmm.A k j ≠ ⊥ := by
  intro k j _ _ _ _
  simp only [demoHmm]
  split_ifs <;> exact WithBot.coe_ne_bot

theorem demoHmm_B_finite :
    ∀ j o, 0 ≤ j → j < demoHmm.q → 0 ≤ o → o < demoHmm.n → demoHmm.B j o ≠ ⊥ := by
  intro j o _ _ _ _
  simp only [demoHmm]
  split_ifs <;> exact WithBot.coe_ne_bot

theorem demoHmm_Y_range :
    ∀ i, 0 ≤ i → i < demoHmm.t → 0 ≤ demoHmm.Y i ∧ demoHmm.Y i < demoHmm.n := by
  intro i _ _
  simp only [demoHmm]
  split_ifs <;> decide

/-- Witness of C2 on the three-observation model. -/
theorem C2_single_worker_optimal_witness :
    ∃ x : Int → Int, IsPath demoHmm.q x (demoHmm.t - 1) ∧
      (∃ w, viterbi (0 + 1) demoHmm demoEnv 1 0 =
        ProcEnd.done 1 w (some (print_arr demoHmm.t (fun i => demoHmm.S (x i))))) ∧
      ∀ y, IsPath demoHmm.q y (demoHmm.t - 1) →
        pathScore demoHmm y (demoHmm.t - 1) ≤ pathScore demoHmm x (demoHmm.t - 1) :=
  C2_single_worker_optimal demoHmm demoEnv 0 (by decide) (by decide) demoHmm_I_finite
    demoHmm_A_finite demoHmm_B_finite demoHmm_Y_range

/-- Witness of C4: stage 2, state 1 of the three-observation model. -/
theorem C4_dp1_meaning_witness :
    (∃ x, IsPath demoHmm.q x 2 ∧ x 2 = 1 ∧
      (start_worker demoHmm demoEnv 1 0).dp1 2 1 = pathScore demoHmm x 2) ∧
    (∀ x, IsPath demoHmm.q x 2 → x 2 = 1 →
      pathScore demoHmm x 2 ≤ (start_worker demoHmm demoEnv 1 0).dp1 2 1) ∧
    (start_worker demoHmm demoEnv 1 0).dp1 0 1 = demoHmm.I 1 + demoHmm.B 1 (demoHmm.Y 0) :=
  C4_dp1_meaning demoHmm demoEnv (by decide) 2 1 (by decide) (by decide) (by decide) (by decide)

/-- Witness of C7: the zeroed table, where state 0 is the first maximum. -/
theorem C7_terminal_state_witness :
    0 ≤ (terminal demoHmm (demoEnv.fresh 0).dp1).arg_max ∧
    (terminal demoHmm (demoEnv.fresh 0).dp1).arg_max < demoHmm.q ∧
    (∀ j, 0 ≤ j → j < demoHmm.q →
      (demoEnv.fresh 0).dp1 (demoHmm.t - 1) j ≤
        (demoEnv.fresh 0).dp1 (demoHmm.t - 1) (terminal demoHmm (demoEnv.fresh 0).dp1).arg_max) ∧
    (∀ j, 0 ≤ j → j < demoHmm.q →
      (∀ k, 0 ≤ k → k < demoHmm.q →
        (demoEnv.fresh 0).dp1 (demoHmm.t - 1) k ≤ (demoEnv.fresh 0).dp1 (demoHmm.t - 1) j) →
      (terminal demoHmm (demoEnv.fresh 0).dp1).arg_max ≤ j) :=
  C7_terminal_state demoHmm (demoEnv.fresh 0).dp1 (by decide)

/-- Witness of C8: backtracking through the zeroed backpointer table. -/
theorem C8_backtracking_witness :
    ((print_arr demoHmm.t (backtrack demoHmm (demoEnv.fresh 0).dp2 demoEnv.freshX
      (terminal demoHmm (demoEnv.fresh 0).dp1).arg_max).X).length : Int) = demoHmm.t ∧
    ∃ x : Int → Int,
      x (demoHmm.t - 1) = (terminal demoHmm (demoEnv.fresh 0).dp1).arg_max ∧
      (∀ i, 1 ≤ i → i ≤ demoHmm.t - 1 → x (i - 1) = (demoEnv.fresh 0).dp2 i (x i)) ∧
      (∀ i, 0 ≤ i → i < demoHmm.t →
        (backtrack demoHmm (demoEnv.fresh 0).dp2 demoEnv.freshX
          (terminal demoHmm (demoEnv.fresh 0).dp1).arg_max).X i = demoHmm.S (x i)) ∧
      print_arr demoHmm.t (backtrack demoHmm (demoEnv.fresh 0).dp2 demoEnv.freshX
          (terminal demoHmm (demoEnv.fresh 0).dp1).arg_max).X =
        print_arr demoHmm.t (fun i => demoHmm.S (x i)) ∧
      (1 ≤ demoHmm.q → ∀ i, 0 ≤ i → i < demoHmm.t → 0 ≤ x i ∧ x i < demoHmm.q) :=
  C8_backtracking demoHmm (demoEnv.fresh 0).dp1 (demoEnv.fresh 0).dp2 demoEnv.freshX
    (by decide) (fun _ _ _ _ _ _ => by simp [demoEnv, demoHmm])

/-! ## Stage assignment: no empty range -/

theorem stage_handshake_eq (t W : Int) (r : Nat) :
    stage_handshake t W r = assign_stages t W r (stages_left_in t W r) := by
  cases r with
  | zero => simp [stage_handshake, stages_left_in]
  | succ r => simp [stage_handshake, stages_left_in]

theorem stages_left_in_closed (t W : Int) (hW1 : 1 ≤ W) (hWt : W ≤ t - 1) (r : Nat)
    (hr : (r : Int) < W) : stages_left_in t W r = t - lpClosed t W r := by
  cases r with
  | zero =>
    rw [stages_left_in, Nat.cast_zero, lpClosed_zero t W hW1]
  | succ r =>
    rw [stages_left_in, stage_handshake_closed t W hW1 hWt r (by push_cast at hr; omega)]
    push_cast
    rfl

/-- Lines 81-101 written with the values of lines 84-94 and the test of line 95. -/
theorem assign_stages_rules (t W rk sl : Int) :
    assign_stages t W rk sl =
      { lp := if sl = 0 then -1 else lp_rule t rk sl,
        rp := if sl = 0 then -1
          else if sl - (rp_rule t W rk sl - lp_rule t rk sl) ≤ 0 then t else rp_rule t W rk sl,
        stages_left := sl -
          ((if sl = 0 then -1
            else if sl - (rp_rule t W rk sl - lp_rule t rk sl) ≤ 0 then t
              else rp_rule t W rk sl) -
            (if sl = 0 then -1 else lp_rule t rk sl)) } := by
  rfl

theorem rules_closed (t W : Int) (hW1 : 1 ≤ W) (hWt : W ≤ t - 1) (r : Nat)
    (hr : (r : Int) < W) :
    lp_rule t r (stages_left_in t W r) = lpClosed t W r ∧
    rp_rule t W r (stages_left_in t W r) = lpClosed t W (r + 1) := by
  have hdiv : (t - 1).tdiv W = (t - 1) / W := Int.tdiv_eq_ediv (by omega) (by omega)
  have hmod : (t - 1).tmod W = (t - 1) % W := Int.tmod_eq_emod (by omega) (by omega)
  have hr0 : (0 : Int) ≤ r := Int.natCast_nonneg r
  have hlp : lp_rule t r (stages_left_in t W r) = lpClosed t W r := by
    unfold lp_rule
    rw [stages_left_in_closed t W hW1 hWt r hr]
    split_ifs with h
    · omega
    · have h0 : (r : Int) = 0 := by omega
      rw [h0, lpClosed_zero t W hW1]
  refine ⟨hlp, ?_⟩
  unfold rp_rule
  rw [hlp, hdiv, hmod, lpClosed_succ]
  unfold chunk
  split_ifs <;> omega

/-- C18. For `t ≥ 2` and `world_size ≥ 1`, with `W = comm_size t world_size =
min world_size (t-1)`, every rank `r < W` reaches line 90 with `stages_left > 0`;
its range is not the sentinel `lp = rp = -1` and holds at least one stage
(`lp_r < rp_r`); the clamp of line 95 fires exactly at rank `W-1`; and on every
rank `rp` keeps the value computed by the base/extra rule of lines 90-94, so the
clamp does not change it. -/
theorem C18_no_empty_range (t world_size : Int) (ht : 2 ≤ t) (hws : 1 ≤ world_size) (r : Nat)
    (hr : (r : Int) < comm_size t world_size) :
    comm_size t world_size = min world_size (t - 1) ∧
    0 < stages_left_in t (comm_size t world_size) r ∧
    stage_handshake t (comm_size t world_size) r =
      assign_stages t (comm_size t world_size) r
        (stages_left_in t (comm_size t world_size) r) ∧
    (stage_handshake t (comm_size t world_size) r).lp ≠ -1 ∧
    (stage_handshake t (comm_size t world_size) r).rp ≠ -1 ∧
    (stage_handshake t (comm_size t world_size) r).lp <
      (stage_handshake t (comm_size t world_size) r).rp ∧
    (clamp_fires t (comm_size t world_size) r (stages_left_in t (comm_size t world_size) r) ↔
      (r : Int) = comm_size t world_size - 1) ∧
    (stage_handshake t (comm_size t world_size) r).rp =
      rp_rule t (comm_size t world_size) r (stages_left_in t (comm_size t world_size) r) := by
  have hW : comm_size t world_size = min world_size (t - 1) := by
    unfold comm_size
    split_ifs with h
    · exact (min_eq_right h).symm
    · exact (min_eq_left (by omega)).symm
  have hW1 : 1 ≤ comm_size t world_size := by rw [hW]; exact le_min hws (by omega)
  have hWt : comm_size t world_size ≤ t - 1 := by rw [hW]; exact min_le_right _ _
  refine ⟨hW, ?_⟩
  generalize comm_size t world_size = W at *
  have hr0 : (0 : Int) ≤ r := Int.natCast_nonneg r
  have hcl := stage_handshake_closed t W hW1 hWt r hr
  have hin := stages_left_in_closed t W hW1 hWt r hr
  have hrules := rules_closed t W hW1 hWt r hr
  have hb1 := base_pos t W hW1 hWt
  have hchunk := chunk_pos t W r hW1 hWt
  have hsucc := lpClosed_succ t W r
  have hle := lpClosed_le t W ((r : Int) + 1)
  have hd0 : 0 ≤ (W - ((r : Int) + 1)) * ((t - 1) / W) := mul_nonneg (by omega) (by omega)
  have hlow := lpClosed_mono t W hW1 hWt 0 r
  rw [Nat.cast_zero, zero_add, lpClosed_zero t W hW1] at hlow
  have hdb : (r : Int) + 1 < W → (t - 1) / W ≤ (W - ((r : Int) + 1)) * ((t - 1) / W) := by
    intro h
    have : 1 * ((t - 1) / W) ≤ (W - ((r : Int) + 1)) * ((t - 1) / W) :=
      mul_le_mul_of_nonneg_right (by omega) (by omega)
    simpa using this
  refine ⟨?_, stage_handshake_eq t W r, ?_, ?_, ?_, ?_, ?_⟩
  · rw [hin]; omega
  · rw [hcl]; simp only; omega
  · rw [hcl]; simp only; omega
  · rw [hcl]; simp only; omega
  · unfold clamp_fires
    rw [hrules.1, hrules.2, hin]
    constructor
    · intro h
      by_contra hne
      have := hdb (by omega)
      omega
    · intro h
      have htop : lpClosed t W ((r : Int) + 1) = t := by
        have : (r : Int) + 1 = W := by omega
        rw [this]; exact lpClosed_top t W hW1
      omega
  · rw [hcl, hrules.2]

/-- Witness of C18: `t = 8` on ten processes, rank 6 (the last of the group). -/
theorem C18_no_empty_range_witness :
    comm_size 8 10 = min 10 (8 - 1) ∧
    0 < stages_left_in 8 (comm_size 8 10) 6 ∧
    stage_handshake 8 (comm_size 8 10) 6 =
      assign_stages 8 (comm_size 8 10) (6 : Nat) (stages_left_in 8 (comm_size 8 10) 6) ∧
    (stage_handshake 8 (comm_size 8 10) 6).lp ≠ -1 ∧
    (stage_handshake 8 (comm_size 8 10) 6).rp ≠ -1 ∧
    (stage_handshake 8 (comm_size 8 10) 6).lp < (stage_handshake 8 (comm_size 8 10) 6).rp ∧
    (clamp_fires 8 (comm_size 8 10) (6 : Nat) (stages_left_in 8 (comm_size 8 10) 6) ↔
      ((6 : Nat) : Int) = comm_size 8 10 - 1) ∧
    (stage_handshake 8 (comm_size 8 10) 6).rp =
      rp_rule 8 (comm_size 8 10) (6 : Nat) (stages_left_in 8 (comm_size 8 10) 6) :=
  C18_no_empty_range 8 10 (by decide) (by decide) 6 (by decide)

/-! ## The leftmost worker in the fixup phase -/

theorem fixup_rounds_zero_rank (m : Hmm V) (ws : Nat → Worker V) (n : Nat) :
    (fixup_rounds m n ws 0).dp1 = (ws 0).dp1 ∧ (fixup_rounds m n ws 0).dp2 = (ws 0).dp2 ∧
    (fixup_rounds m n ws 0).lp = (ws 0).lp ∧ (fixup_rounds m n ws 0).rp = (ws 0).rp ∧
    (1 ≤ n → (fixup_rounds m n ws 0).local_converged = 1) := by
  induction n with
  | zero => exact ⟨rfl, rfl, rfl, rfl, fun h => absurd h (by decide)⟩
  | succ n ih =>
    simp only [fixup_rounds, fixup_round_zero]
    exact ⟨ih.1, ih.2.1, ih.2.2.1, ih.2.2.2.1, fun _ => trivial⟩

/-- C14. In every fixup round rank 0 sets `local_converged = 1` and leaves every
entry of its `dp1` and `dp2` unchanged, after one round and after any number of
rounds. With a single worker (`W = 1`) the do-while loop runs exactly one round
for every positive round bound, and the tables that reach the backwards phase
(`dp1` for the terminal state, the gathered `dp2` for backtracking) are those
the worker held when it entered the loop, that is the tables of the forward
phase. -/
theorem C14_leftmost_worker (m : Hmm V) (ws : Nat → Worker V) (n fuel : Nat) :
    (fixup_round m ws 0).local_converged = 1 ∧
    (fixup_round m ws 0).dp1 = (ws 0).dp1 ∧
    (fixup_round m ws 0).dp2 = (ws 0).dp2 ∧
    (fixup_rounds m (n + 1) ws 0).local_converged = 1 ∧
    (fixup_rounds m (n + 1) ws 0).dp1 = (ws 0).dp1 ∧
    (fixup_rounds m (n + 1) ws 0).dp2 = (ws 0).dp2 ∧
    ∃ ws', fixup_loop m 1 (fuel + 1) ws = some (1, ws') ∧
      (ws' 0).dp1 = (ws 0).dp1 ∧ (gather m 1 ws').dp2 = (ws 0).dp2 := by
  have h := fixup_rounds_zero_rank m ws (n + 1)
  refine ⟨?_, ?_, ?_, h.2.2.2.2 (by omega), h.1, h.2.1, fun r => fixup_round m ws r, ?_, ?_, ?_⟩
  · rw [fixup_round_zero]
  · rw [fixup_round_zero]
  · rw [fixup_round_zero]
  · exact fixup_loop_single m fuel ws
  · simp only [fixup_round_zero]
  · simp [gather, fixup_round_zero]

/-! ## Backpointers are state indices -/

theorem init_tables_fl_exact (m : Hmm V) (fresh : Tables V) (rand : Int → Int → WithBot V) :
    init_tables_fl (fun x y => x + y) m fresh rand = init_tables m fresh rand := rfl

theorem forward_fl_exact (m : Hmm V) (lp rp : Int) (tb : Tables V) :
    forward_fl (fun x y => x + y) m lp rp tb = forward m lp rp tb := rfl

theorem f32_add_grid_exact (a b : Int) (h : -16777216 < a + b) :
    f32_add_grid (a : WithBot Int) (b : WithBot Int) = (a : WithBot Int) + (b : WithBot Int) := by
  show (if a + b ≤ -16777216 then ⊥ else ((a + b : Int) : WithBot Int)) = _
  rw [if_neg (by omega)]
  rfl

theorem f32_add_grid_overflow (a b : Int) (h : a + b ≤ -16777216) :
    f32_add_grid (a : WithBot Int) (b : WithBot Int) = ⊥ := by
  show (if a + b ≤ -16777216 then ⊥ else ((a + b : Int) : WithBot Int)) = _
  rw [if_pos h]

theorem copy_new_to_old_eq (q i : Int) (s1 : Int → WithBot V) (s2 : Int → Int)
    (tb : Tables V) :
    copy_new_to_old q i s1 s2 tb =
      { dp1 := fun i' j' => if i' = i ∧ 0 ≤ j' ∧ j' < q then s1 j' else tb.dp1 i' j',
        dp2 := fun i' j' => if i' = i ∧ 0 ≤ j' ∧ j' < q then s2 j' else tb.dp2 i' j' } := by
  unfold copy_new_to_old
  exact fill_row q i s1 s2 tb _ (fun j st _ _ _ => rfl)

theorem is_parallel_iff (q i : Int) (s1 : Int → WithBot V) (dp1 : Int → Int → WithBot V) :
    is_parallel q i s1 dp1 = true ↔
      ∀ j k : Int, 0 ≤ j → j < q → 0 ≤ k → k < q → s1 j + dp1 i k = s1 k + dp1 i j := by
  unfold is_parallel
  simp only [List.all_eq_true, List.mem_range, decide_eq_true_eq]
  constructor
  · intro h j k hj0 hj hk0 hk
    have := h j.toNat (by omega) k.toNat (by omega)
    rwa [Int.toNat_of_nonneg hj0, Int.toNat_of_nonneg hk0] at this
  · intro h j hj k hk
    exact h j k (Int.natCast_nonneg j) (by omega) (Int.natCast_nonneg k) (by omega)

theorem is_parallel_congr (q i : Int) (s1 s1' : Int → WithBot V)
    (dp1 dp1' : Int → Int → WithBot V) (hs : ∀ j, 0 ≤ j → j < q → s1 j = s1' j)
    (hd : ∀ j, 0 ≤ j → j < q → dp1 i j = dp1' i j) :
    is_parallel q i s1 dp1 = is_parallel q i s1' dp1' := by
  rw [Bool.eq_iff_iff, is_parallel_iff, is_parallel_iff]
  constructor
  · intro h j k hj0 hj hk0 hk
    rw [← hs j hj0 hj, ← hs k hk0 hk, ← hd j hj0 hj, ← hd k hk0 hk]
    exact h j k hj0 hj hk0 hk
  · intro h j k hj0 hj hk0 hk
    rw [hs j hj0 hj, hs k hk0 hk, hd j hj0 hj, hd k hk0 hk]
    exact h j k hj0 hj hk0 hk

theorem fix_stage_congr (m : Hmm V) (i : Int) (dp1 dp1' : Int → Int → WithBot V)
    (h : ∀ k, 0 ≤ k → k < m.q → dp1 (i - 1) k = dp1' (i - 1) k) :
    fix_stage m i dp1 = fix_stage m i dp1' := by
  unfold fix_stage
  have : ∀ j, best_pred m dp1 i j = best_pred m dp1' i j :=
    fun j => best_pred_congr m dp1 dp1' i j h
  simp only [this]

theorem fixup_range_eq (m : Hmm V) (w : Worker V) :
    fixup_range m w = forLoop w.lp w.rp (fixup_stage m) w := rfl

theorem fixup_stage_parallel (m : Hmm V) (i : Int) (w : Worker V)
    (h : is_parallel m.q i (fix_stage m i w.dp1).1 w.dp1 = true) :
    fixup_stage m i w = { w with local_converged := 1 } := by
  unfold fixup_stage
  simp [h]

theorem fixup_stage_copy (m : Hmm V) (i : Int) (w : Worker V)
    (h : is_parallel m.q i (fix_stage m i w.dp1).1 w.dp1 = false) :
    fixup_stage m i w =
      { w with
        dp1 := fun i' j' =>
          if i' = i ∧ 0 ≤ j' ∧ j' < m.q then (fix_stage m i w.dp1).1 j' else w.dp1 i' j',
        dp2 := fun i' j' =>
          if i' = i ∧ 0 ≤ j' ∧ j' < m.q then (fix_stage m i w.dp1).2 j' else w.dp2 i' j',
        local_converged := 0 } := by
  unfold fixup_stage
  simp [h, copy_new_to_old_eq]

/-- One stage of the fixup loop keeps the range and every cell outside row `i`. -/
theorem fixup_stage_frame (m : Hmm V) (i : Int) (w : Worker V) :
    (fixup_stage m i w).lp = w.lp ∧ (fixup_stage m i w).rp = w.rp ∧
    (∀ i' j', i' ≠ i →
      (fixup_stage m i w).dp1 i' j' = w.dp1 i' j' ∧
      (fixup_stage m i w).dp2 i' j' = w.dp2 i' j') ∧
    ((fixup_stage m i w).local_converged = 0 ∨ (fixup_stage m i w).local_converged = 1) := by
  cases h : is_parallel m.q i (fix_stage m i w.dp1).1 w.dp1 with
  | true =>
    rw [fixup_stage_parallel m i w h]
    exact ⟨rfl, rfl, fun _ _ _ => ⟨rfl, rfl⟩, Or.inr rfl⟩
  | false =>
    rw [fixup_stage_copy m i w h]
    refine ⟨rfl, rfl, ?_, Or.inl rfl⟩
    intro i' j' hne
    have : ¬ (i' = i ∧ 0 ≤ j' ∧ j' < m.q) := fun hh => hne hh.1
    simp only [this, if_false, and_self]

/-- After stage `i` of the fixup loop, the stored row `i` is parallel to what
`fix_stage` recomputes for it. -/
theorem fixup_stage_settles (m : Hmm V) (i : Int) (w : Worker V) :
    is_parallel m.q i (fix_stage m i (fixup_stage m i w).dp1).1 (fixup_stage m i w).dp1 =
      true := by
  cases h : is_parallel m.q i (fix_stage m i w.dp1).1 w.dp1 with
  | true =>
    rw [fixup_stage_parallel m i w h]
    exact h
  | false =>
    have hfix : fix_stage m i (fixup_stage m i w).dp1 = fix_stage m i w.dp1 :=
      fix_stage_congr m i _ _ (fun k _ _ => ((fixup_stage_frame m i w).2.2.1 (i - 1) k
        (by omega)).1)
    rw [hfix, fixup_stage_copy m i w h, is_parallel_iff]
    intro j k hj0 hj hk0 hk
    simp only [hj0, hj, hk0, hk, and_self, if_true]
    exact add_comm _ _

/-! ## One pass of a worker through its range -/

/-- A pass of lines 149-159 keeps the range and every cell outside the owned
rows, and leaves the worker settled. -/
theorem fixup_range_spec (m : Hmm V) (w : Worker V) :
    (fixup_range m w).lp = w.lp ∧ (fixup_range m w).rp = w.rp ∧
    (∀ i j, ¬ (w.lp ≤ i ∧ i < w.rp) →
      (fixup_range m w).dp1 i j = w.dp1 i j ∧ (fixup_range m w).dp2 i j = w.dp2 i j) ∧
    Settled m (fixup_range m w) := by
  rw [fixup_range_eq]
  by_cases hle : w.lp ≤ w.rp
  · have key := forLoop_invariant (fun n (st : Worker V) =>
      st.lp = w.lp ∧ st.rp = w.rp ∧
      (∀ i j, ¬ (w.lp ≤ i ∧ i < n) → st.dp1 i j = w.dp1 i j ∧ st.dp2 i j = w.dp2 i j) ∧
      (∀ i, w.lp ≤ i → i < n → is_parallel m.q i (fix_stage m i st.dp1).1 st.dp1 = true))
      w.lp w.rp (fixup_stage m) w hle
      ⟨rfl, rfl, fun _ _ _ => ⟨rfl, rfl⟩, fun i h1 h2 => by omega⟩ ?_
    · obtain ⟨h1, h2, h3, h4⟩ := key
      refine ⟨h1, h2, h3, ?_⟩
      intro i hi1 hi2
      rw [h1] at hi1
      rw [h2] at hi2
      exact h4 i hi1 hi2
    · intro n st hn1 hn2 hst
      obtain ⟨h1, h2, h3, h4⟩ := hst
      obtain ⟨f1, f2, f3, -⟩ := fixup_stage_frame m n st
      refine ⟨by rw [f1, h1], by rw [f2, h2], ?_, ?_⟩
      · intro i j hij
        rw [(f3 i j (by omega)).1, (f3 i j (by omega)).2]
        exact h3 i j (by omega)
      · intro i hi1 hi2
        rcases (by omega : i < n ∨ i = n) with h | h
        · have hfix : fix_stage m i (fixup_stage m n st).dp1 = fix_stage m i st.dp1 :=
            fix_stage_congr m i _ _ (fun k _ _ => (f3 (i - 1) k (by omega)).1)
          rw [hfix, is_parallel_congr m.q i _ (fix_stage m i st.dp1).1 _ st.dp1
            (fun _ _ _ => rfl) (fun j _ _ => (f3 i j (by omega)).1)]
          exact h4 i hi1 h
        · rw [h]
          exact fixup_stage_settles m n st
  · rw [forLoop_empty w.lp w.rp _ w (by omega)]
    refine ⟨rfl, rfl, fun _ _ _ => ⟨rfl, rfl⟩, ?_⟩
    intro i h1 h2
    omega

/-- A pass over a settled, non-empty range copies nothing and ends with
`local_converged = 1`. -/
theorem fixup_range_settled (m : Hmm V) (w : Worker V) (hS : Settled m w)
    (hlt : w.lp < w.rp) : fixup_range m w = { w with local_converged := 1 } := by
  rw [fixup_range_eq]
  have key := forLoop_invariant (fun n (st : Worker V) =>
    (n = w.lp ∧ st = w) ∨ (w.lp < n ∧ st = { w with local_converged := 1 }))
    w.lp w.rp (fixup_stage m) w (by omega) (Or.inl ⟨rfl, rfl⟩) ?_
  · rcases key with h | h
    · omega
    · exact h.2
  · intro n st hn1 hn2 hst
    right
    refine ⟨by omega, ?_⟩
    have hpar : is_parallel m.q n (fix_stage m n st.dp1).1 st.dp1 = true := by
      rcases hst with h | h
      · rw [h.2]; exact hS n hn1 hn2
      · rw [h.2]; exact hS n hn1 hn2
    rw [fixup_stage_parallel m n st hpar]
    rcases hst with h | h
    · rw [h.2]
    · rw [h.2]

/-! ## One round of a worker -/

theorem fixup_round_succ (m : Hmm V) (ws : Nat → Worker V) (r : Nat) :
    fixup_round m ws (r + 1) =
      if (ws (r + 1)).local_converged = 0 then
        fixup_range m { ws (r + 1) with dp1 := round_recv m ws (r + 1) }
      else
        { ws (r + 1) with dp1 := round_recv m ws (r + 1) } := by
  unfold fixup_round
  have h : ¬ (((r + 1 : Nat) : Int) = 0) := by push_cast; omega
  simp only [h, if_false]

theorem round_recv_succ (m : Hmm V) (ws : Nat → Worker V) (r : Nat) (i j : Int) :
    round_recv m ws (r + 1) i j =
      if i = (ws (r + 1)).lp - 1 ∧ 0 ≤ j ∧ j < m.q then sent_row m ws r j
      else (ws (r + 1)).dp1 i j := rfl

/-- The row a worker with a non-empty range sends is its stored row `rp-1`. -/
theorem sent_row_eq (m : Hmm V) (ws : Nat → Worker V) (r : Nat)
    (hne : (ws r).lp < (ws r).rp) (j : Int) :
    sent_row m ws r j = (ws r).dp1 ((ws r).rp - 1) j := by
  unfold sent_row
  cases r with
  | zero => rfl
  | succ r =>
    rw [round_recv_succ]
    have : ¬ ((ws (r + 1)).rp - 1 = (ws (r + 1)).lp - 1 ∧ 0 ≤ j ∧ j < m.q) := by omega
    rw [if_neg this]

/-- One round keeps the range of every worker. -/
theorem fixup_round_range (m : Hmm V) (ws : Nat → Worker V) (r : Nat) :
    (fixup_round m ws r).lp = (ws r).lp ∧ (fixup_round m ws r).rp = (ws r).rp := by
  cases r with
  | zero => rw [fixup_round_zero]; exact ⟨rfl, rfl⟩
  | succ r =>
    rw [fixup_round_succ]
    split_ifs
    · exact ⟨(fixup_range_spec m _).1, (fixup_range_spec m _).2.1⟩
    · exact ⟨rfl, rfl⟩

theorem fixup_rounds_range (m : Hmm V) (ws : Nat → Worker V) (n r : Nat) :
    (fixup_rounds m n ws r).lp = (ws r).lp ∧ (fixup_rounds m n ws r).rp = (ws r).rp := by
  induction n with
  | zero => exact ⟨rfl, rfl⟩
  | succ n ih =>
    have h := fixup_round_range m (fixup_rounds m n ws) r
    exact ⟨h.1.trans ih.1, h.2.trans ih.2⟩

/-- A worker of rank above 0 whose flag is not 0 is frozen for the round: only
the received boundary row is stored. -/
theorem fixup_round_frozen (m : Hmm V) (ws : Nat → Worker V) (r : Nat)
    (h : (ws (r + 1)).local_converged ≠ 0) :
    fixup_round m ws (r + 1) = { ws (r + 1) with dp1 := round_recv m ws (r + 1) } := by
  rw [fixup_round_succ, if_neg h]

/-! ## Converged workers are frozen -/

theorem round_recv_off_boundary (m : Hmm V) (ws : Nat → Worker V) (r : Nat) (i j : Int)
    (h : i ≠ (ws r).lp - 1) : round_recv m ws r i j = (ws r).dp1 i j := by
  cases r with
  | zero => rfl
  | succ r =>
    rw [round_recv_succ]
    have : ¬ (i = (ws (r + 1)).lp - 1 ∧ 0 ≤ j ∧ j < m.q) := fun hh => h hh.1
    rw [if_neg this]

theorem frozen_rounds (m : Hmm V) (ws : Nat → Worker V) (r n : Nat)
    (h : (ws (r + 1)).local_converged = 1) :
    (fixup_rounds m n ws (r + 1)).local_converged = 1 ∧
    (fixup_rounds m n ws (r + 1)).dp2 = (ws (r + 1)).dp2 ∧
    (∀ i j, i ≠ (ws (r + 1)).lp - 1 →
      (fixup_rounds m n ws (r + 1)).dp1 i j = (ws (r + 1)).dp1 i j) := by
  induction n with
  | zero => exact ⟨h, rfl, fun _ _ _ => rfl⟩
  | succ n ih =>
    have hflag : (fixup_rounds m n ws (r + 1)).local_converged ≠ 0 := by
      rw [ih.1]; decide
    have hstep : fixup_rounds m (n + 1) ws (r + 1) =
        { fixup_rounds m n ws (r + 1) with
          dp1 := round_recv m (fixup_rounds m n ws) (r + 1) } :=
      fixup_round_frozen m (fixup_rounds m n ws) r hflag
    rw [hstep]
    refine ⟨ih.1, ih.2.1, ?_⟩
    intro i j hi
    show round_recv m (fixup_rounds m n ws) (r + 1) i j = _
    rw [round_recv_off_boundary m _ (r + 1) i j
      (by rw [(fixup_rounds_range m ws n (r + 1)).1]; exact hi)]
    exact ih.2.2 i j hi

/-- C15. For a worker of rank `r + 1 > 0` whose flag `local_converged` is 1 at the
start of a round, whatever the other workers hold and send: that round and any
number `n` of rounds leave the flag at 1, leave `lp`, `rp`, the whole of `dp2`
and every row of `dp1` other than the boundary row `lp-1` unchanged (in
particular the rows of `[lp, rp)`); the boundary row holds the received vector;
and, the range being non-empty, the row `dp1[rp-1]` it forwards in the next
round is the one it held at the start. -/
theorem C15_converged_frozen (m : Hmm V) (ws : Nat → Worker V) (r n : Nat)
    (h : (ws (r + 1)).local_converged = 1) :
    (fixup_round m ws (r + 1)).local_converged = 1 ∧
    (fixup_rounds m n ws (r + 1)).local_converged = 1 ∧
    (fixup_rounds m n ws (r + 1)).lp = (ws (r + 1)).lp ∧
    (fixup_rounds m n ws (r + 1)).rp = (ws (r + 1)).rp ∧
    (∀ i j, (ws (r + 1)).lp ≤ i → i < (ws (r + 1)).rp →
      (fixup_rounds m n ws (r + 1)).dp1 i j = (ws (r + 1)).dp1 i j ∧
      (fixup_rounds m n ws (r + 1)).dp2 i j = (ws (r + 1)).dp2 i j) ∧
    (∀ i j, i ≠ (ws (r + 1)).lp - 1 →
      (fixup_rounds m n ws (r + 1)).dp1 i j = (ws (r + 1)).dp1 i j) ∧
    (fixup_rounds m n ws (r + 1)).dp2 = (ws (r + 1)).dp2 ∧
    (∀ j, 0 ≤ j → j < m.q →
      (fixup_rounds m (n + 1) ws (r + 1)).dp1 ((ws (r + 1)).lp - 1) j =
        sent_row m (fixup_rounds m n ws) r j) ∧
    ((ws (r + 1)).lp < (ws (r + 1)).rp → ∀ j,
      sent_row m (fixup_rounds m n ws) (r + 1) j =
        (ws (r + 1)).dp1 ((ws (r + 1)).rp - 1) j) := by
  have h1 := frozen_rounds m ws r 1 h
  have hn := frozen_rounds m ws r n h
  have hrange := fixup_rounds_range m ws n (r + 1)
  refine ⟨h1.1, hn.1, hrange.1, hrange.2, ?_, hn.2.2, hn.2.1, ?_, ?_⟩
  · intro i j hi1 hi2
    exact ⟨hn.2.2 i j (by omega), by rw [hn.2.1]⟩
  · intro j hj0 hj
    have hflag : (fixup_rounds m n ws (r + 1)).local_converged ≠ 0 := by
      rw [hn.1]; decide
    have hstep : fixup_rounds m (n + 1) ws (r + 1) =
        { fixup_rounds m n ws (r + 1) with
          dp1 := round_recv m (fixup_rounds m n ws) (r + 1) } :=
      fixup_round_frozen m (fixup_rounds m n ws) r hflag
    rw [hstep]
    show round_recv m (fixup_rounds m n ws) (r + 1) _ j = _
    rw [round_recv_succ, hrange.1, if_pos ⟨rfl, hj0, hj⟩]
  · intro hlt j
    rw [sent_row_eq m _ (r + 1) (by rw [hrange.1, hrange.2]; exact hlt) j, hrange.2]
    exact hn.2.2 _ j (by omega)

/-- Witness of C15: rank 1 of `demoFrozen` over three rounds. -/
theorem C15_converged_frozen_witness :
    (fixup_round demoHmm demoFrozen (0 + 1)).local_converged = 1 ∧
    (fixup_rounds demoHmm 3 demoFrozen (0 + 1)).local_converged = 1 ∧
    (fixup_rounds demoHmm 3 demoFrozen (0 + 1)).lp = (demoFrozen (0 + 1)).lp ∧
    (fixup_rounds demoHmm 3 demoFrozen (0 + 1)).rp = (demoFrozen (0 + 1)).rp ∧
    (∀ i j, (demoFrozen (0 + 1)).lp ≤ i → i < (demoFrozen (0 + 1)).rp →
      (fixup_rounds demoHmm 3 demoFrozen (0 + 1)).dp1 i j = (demoFrozen (0 + 1)).dp1 i j ∧
      (fixup_rounds demoHmm 3 demoFrozen (0 + 1)).dp2 i j = (demoFrozen (0 + 1)).dp2 i j) ∧
    (∀ i j, i ≠ (demoFrozen (0 + 1)).lp - 1 →
      (fixup_rounds demoHmm 3 demoFrozen (0 + 1)).dp1 i j = (demoFrozen (0 + 1)).dp1 i j) ∧
    (fixup_rounds demoHmm 3 demoFrozen (0 + 1)).dp2 = (demoFrozen (0 + 1)).dp2 ∧
    (∀ j, 0 ≤ j → j < demoHmm.q →
      (fixup_rounds demoHmm (3 + 1) demoFrozen (0 + 1)).dp1 ((demoFrozen (0 + 1)).lp - 1) j =
        sent_row demoHmm (fixup_rounds demoHmm 3 demoFrozen) 0 j) ∧
    ((demoFrozen (0 + 1)).lp < (demoFrozen (0 + 1)).rp → ∀ j,
      sent_row demoHmm (fixup_rounds demoHmm 3 demoFrozen) (0 + 1) j =
        (demoFrozen (0 + 1)).dp1 ((demoFrozen (0 + 1)).rp - 1) j) :=
  C15_converged_frozen demoHmm demoFrozen 0 3 rfl

/-! ## The fixup loop ends within `W` rounds -/

theorem worker_eta (w : Worker V) : { w with dp1 := w.dp1 } = w := by
  cases w
  rfl

/-- The first round in which a worker receives the row `μ`: afterwards its flag
is not 0, or it is settled on top of `μ`. -/
theorem fixup_first_case (m : Hmm V) (X : Nat → Worker V) (r : Nat) (μ : Int → WithBot V)
    (hmsg : ∀ j, 0 ≤ j → j < m.q → sent_row m X r j = μ j) :
    (fixup_round m X (r + 1)).local_converged ≠ 0 ∨
      (Settled m (fixup_round m X (r + 1)) ∧
        ∀ j, 0 ≤ j → j < m.q → (fixup_round m X (r + 1)).dp1 ((X (r + 1)).lp - 1) j = μ j) := by
  by_cases hflag : (X (r + 1)).local_converged = 0
  · right
    rw [fixup_round_succ, if_pos hflag]
    refine ⟨(fixup_range_spec m _).2.2.2, ?_⟩
    intro j hj0 hj
    rw [((fixup_range_spec m _).2.2.1 ((X (r + 1)).lp - 1) j
      (by show ¬ ((X (r + 1)).lp ≤ _ ∧ _); omega)).1]
    show round_recv m X (r + 1) _ j = _
    rw [round_recv_succ, if_pos ⟨rfl, hj0, hj⟩]
    exact hmsg j hj0 hj
  · left
    rw [fixup_round_frozen m X r hflag]
    exact hflag

/-- A later round in which a worker receives the same row `μ`: its flag is not 0
afterwards and no row of its `dp1` other than the boundary row has changed. -/
theorem fixup_step_case (m : Hmm V) (X : Nat → Worker V) (r : Nat) (μ : Int → WithBot V)
    (hmsg : ∀ j, 0 ≤ j → j < m.q → sent_row m X r j = μ j)
    (hlt : (X (r + 1)).lp < (X (r + 1)).rp)
    (hsc : (X (r + 1)).local_converged ≠ 0 ∨
      (Settled m (X (r + 1)) ∧
        ∀ j, 0 ≤ j → j < m.q → (X (r + 1)).dp1 ((X (r + 1)).lp - 1) j = μ j)) :
    (fixup_round m X (r + 1)).local_converged ≠ 0 ∧
    (∀ i j, i ≠ (X (r + 1)).lp - 1 →
      (fixup_round m X (r + 1)).dp1 i j = (X (r + 1)).dp1 i j) := by
  by_cases hflag : (X (r + 1)).local_converged = 0
  · rcases hsc with h | ⟨hS, hrow⟩
    · exact absurd hflag h
    · have hsame : round_recv m X (r + 1) = (X (r + 1)).dp1 := by
        funext i j
        rw [round_recv_succ]
        split_ifs with hc
        · rw [hc.1, hmsg j hc.2.1 hc.2.2, hrow j hc.2.1 hc.2.2]
        · rfl
      rw [fixup_round_succ, if_pos hflag, hsame, worker_eta,
        fixup_range_settled m (X (r + 1)) hS hlt]
      exact ⟨one_ne_zero, fun _ _ _ => rfl⟩
  · rw [fixup_round_frozen m X r hflag]
    refine ⟨hflag, ?_⟩
    intro i j hi
    exact round_recv_off_boundary m X (r + 1) i j hi

/-- Rank `r` stops changing its rows (the boundary row apart) after round `r`, and
its flag is not 0 from round `r + 1` on. -/
theorem fixup_converges (m : Hmm V) (ws : Nat → Worker V) (r : Nat)
    (hne : ∀ k, k ≤ r → (ws k).lp < (ws k).rp) :
    (∀ d : Nat, ∀ i j, i ≠ (ws r).lp - 1 →
      (fixup_rounds m (r + d + 1) ws r).dp1 i j = (fixup_rounds m (r + d) ws r).dp1 i j) ∧
    (∀ d : Nat, (fixup_rounds m (r + 1 + d) ws r).local_converged ≠ 0) := by
  induction r with
  | zero =>
    constructor
    · intro d i j _
      rw [(fixup_rounds_zero_rank m ws (0 + d + 1)).1, (fixup_rounds_zero_rank m ws (0 + d)).1]
    · intro d
      rw [(fixup_rounds_zero_rank m ws (0 + 1 + d)).2.2.2.2 (by omega)]
      exact one_ne_zero
  | succ r ih =>
    obtain ⟨ihstab, -⟩ := ih (fun k hk => hne k (by omega))
    have hlr := hne r (by omega)
    have hlr1 := hne (r + 1) le_rfl
    -- the row received by rank `r + 1` is the same in every round after round `r`
    have hrow : ∀ d : Nat, ∀ j,
        (fixup_rounds m (r + d) ws r).dp1 ((ws r).rp - 1) j =
          (fixup_rounds m r ws r).dp1 ((ws r).rp - 1) j := by
      intro d
      induction d with
      | zero => intro j; rfl
      | succ d ihd =>
        intro j
        rw [← ihd j]
        exact ihstab d _ j (by omega)
    have hmsg : ∀ d : Nat, ∀ j, 0 ≤ j → j < m.q →
        sent_row m (fixup_rounds m (r + d) ws) r j =
          (fixup_rounds m r ws r).dp1 ((ws r).rp - 1) j := by
      intro d j _ _
      have hrg := fixup_rounds_range m ws (r + d) r
      rw [sent_row_eq m _ r (by rw [hrg.1, hrg.2]; exact hlr) j, hrg.2]
      exact hrow d j
    have hsc : ∀ d : Nat,
        (fixup_rounds m (r + 1 + d) ws (r + 1)).local_converged ≠ 0 ∨
          (Settled m (fixup_rounds m (r + 1 + d) ws (r + 1)) ∧
            ∀ j, 0 ≤ j → j < m.q →
              (fixup_rounds m (r + 1 + d) ws (r + 1)).dp1
                ((fixup_rounds m (r + 1 + d) ws (r + 1)).lp - 1) j =
              (fixup_rounds m r ws r).dp1 ((ws r).rp - 1) j) := by
      intro d
      induction d with
      | zero =>
        have h := fixup_first_case m (fixup_rounds m r ws) r _ (hmsg 0)
        rw [(fixup_rounds_range m ws (r + 1 + 0) (r + 1)).1,
          ← (fixup_rounds_range m ws r (r + 1)).1]
        exact h
      | succ d ihd =>
        left
        have hrg := fixup_rounds_range m ws (r + 1 + d) (r + 1)
        have hm := hmsg (1 + d)
        rw [← add_assoc] at hm
        exact (fixup_step_case m (fixup_rounds m (r + 1 + d) ws) r _ hm
          (by rw [hrg.1, hrg.2]; exact hlr1) ihd).1
    constructor
    · intro d i j hi
      have hrg := fixup_rounds_range m ws (r + 1 + d) (r + 1)
      have hm := hmsg (1 + d)
      rw [← add_assoc] at hm
      exact (fixup_step_case m (fixup_rounds m (r + 1 + d) ws) r _ hm
        (by rw [hrg.1, hrg.2]; exact hlr1) (hsc d)).2 i j (by rw [hrg.1]; exact hi)
    · intro d
      have hrg := fixup_rounds_range m ws (r + 1 + d) (r + 1)
      have hm := hmsg (1 + d)
      rw [← add_assoc] at hm
      have h := (fixup_step_case m (fixup_rounds m (r + 1 + d) ws) r _ hm
        (by rw [hrg.1, hrg.2]; exact hlr1) (hsc d)).1
      have e : r + 1 + 1 + d = r + 1 + d + 1 := by omega
      rw [e]
      exact h

theorem allreduce_land_eq_one (W : Int) (ws : Nat → Worker V) :
    allreduce_land W ws = 1 ↔ ∀ r : Nat, (r : Int) < W → (ws r).local_converged ≠ 0 := by
  unfold allreduce_land
  constructor
  · intro h r hr
    by_cases hall : (List.range W.toNat).all (fun r => decide ((ws r).local_converged ≠ 0)) = true
    · rw [List.all_eq_true] at hall
      have := hall r (List.mem_range.mpr (by omega))
      simpa using this
    · rw [if_neg hall] at h
      exact absurd h (by decide)
  · intro h
    rw [if_pos]
    rw [List.all_eq_true]
    intro r hr
    have hr' := List.mem_range.mp hr
    have := h r (by omega)
    simpa using this

theorem allreduce_land_cases (W : Int) (ws : Nat → Worker V) :
    allreduce_land W ws = 0 ∨ allreduce_land W ws = 1 := by
  unfold allreduce_land
  split_ifs
  · exact Or.inr rfl
  · exact Or.inl rfl

theorem fixup_rounds_shift (m : Hmm V) (ws : Nat → Worker V) (n : Nat) :
    fixup_rounds m (n + 1) ws = fixup_rounds m n (fun r => fixup_round m ws r) := by
  induction n with
  | zero => rfl
  | succ n ih =>
    show (fun r => fixup_round m (fixup_rounds m (n + 1) ws) r) = _
    rw [ih]
    rfl

/-- When the reduction is 1 after some round `k` within the bound, the do-while
loop exits after at most `k` rounds. -/
theorem fixup_loop_exit (m : Hmm V) (W : Int) (fuel : Nat) :
    ∀ (k : Nat) (ws : Nat → Worker V), 1 ≤ k → k ≤ fuel →
      allreduce_land W (fixup_rounds m k ws) = 1 →
      ∃ n, 1 ≤ n ∧ n ≤ k ∧ fixup_loop m W fuel ws = some (n, fixup_rounds m n ws) := by
  induction fuel with
  | zero =>
    intro k ws h1 h2 _
    omega
  | succ fuel ih =>
    intro k ws h1 h2 hall
    rcases allreduce_land_cases W (fun r => fixup_round m ws r) with h0 | h0
    · have hk : k ≠ 1 := by
        intro hk
        rw [hk] at hall
        have : allreduce_land W (fun r => fixup_round m ws r) = 1 := hall
        rw [h0] at this
        exact absurd this (by decide)
      obtain ⟨k', rfl⟩ : ∃ k', k = k' + 1 := ⟨k - 1, by omega⟩
      rw [fixup_rounds_shift] at hall
      obtain ⟨n, hn1, hn2, hn3⟩ := ih k' (fun r => fixup_round m ws r) (by omega) (by omega) hall
      refine ⟨n + 1, by omega, by omega, ?_⟩
      simp only [fixup_loop, h0, if_true, hn3, Option.map_some', fixup_rounds_shift]
    · refine ⟨1, le_rfl, h1, ?_⟩
      simp only [fixup_loop, h0]
      rfl

/-- The workers with which the do-while loop exits have reduction 1. -/
theorem loop_result_reduced (m : Hmm V) (W : Int) (fuel : Nat) :
    ∀ (ws : Nat → Worker V) (n : Nat) (ws' : Nat → Worker V),
      fixup_loop m W fuel ws = some (n, ws') → allreduce_land W ws' = 0 → False := by
  induction fuel with
  | zero =>
    intro ws n ws' h _
    simp [fixup_loop] at h
  | succ fuel ih =>
    intro ws n ws' h h0
    rcases allreduce_land_cases W (fun r => fixup_round m ws r) with hz | hz
    · simp only [fixup_loop, hz, if_true] at h
      cases hrec : fixup_loop m W fuel (fun r => fixup_round m ws r) with
      | none => rw [hrec] at h; simp at h
      | some p =>
        rw [hrec] at h
        simp only [Option.map_some', Option.some.injEq, Prod.mk.injEq] at h
        exact ih _ p.1 p.2 hrec (by rw [h.2]; exact h0)
    · simp only [fixup_loop, hz] at h
      simp only [one_ne_zero, if_false, Option.some.injEq, Prod.mk.injEq] at h
      rw [← h.2] at h0
      rw [hz] at h0
      exact absurd h0 (by decide)

/-- With one thread per process, so that every worker carries out lines 149-159
in increasing order of `i`: for every model and environment (placeholders
included), `t ≥ 2` and a group of `W` workers with `1 ≤ W ≤ t-1`, the do-while
loop of the fixup phase, given a round bound of at least `W`, exits with
`global_converged = 1` after `n` rounds with `1 ≤ n ≤ W`; this `n` is the number
of rounds of the run of `viterbi` on `W` processes. -/
theorem fixup_terminates_in_order (m : Hmm V) (env : Env V) (W : Int) (fuel : Nat) (ht : 2 ≤ m.t)
    (hW1 : 1 ≤ W) (hWt : W ≤ m.t - 1) (hfuel : W ≤ fuel) :
    ∃ (n : Nat) (ws : Nat → Worker V),
      fixup_loop m W fuel (start_worker m env W) = some (n, ws) ∧
      1 ≤ n ∧ (n : Int) ≤ W ∧ allreduce_land W ws = 1 ∧
      (viterbi fuel m env W 0).rounds = some n := by
  have _ := ht
  have hne : ∀ k : Nat, (k : Int) < W →
      (start_worker m env W k).lp < (start_worker m env W k).rp := by
    intro k hk
    show (stage_handshake m.t W k).lp < (stage_handshake m.t W k).rp
    rw [stage_handshake_closed m.t W hW1 hWt k hk]
    show lpClosed m.t W k < lpClosed m.t W (k + 1)
    have := lpClosed_succ m.t W k
    have := chunk_pos m.t W k hW1 hWt
    omega
  have hall : allreduce_land W (fixup_rounds m W.toNat (start_worker m env W)) = 1 := by
    rw [allreduce_land_eq_one]
    intro r hr
    have h := (fixup_converges m (start_worker m env W) r
      (fun k hk => hne k (by omega))).2 (W.toNat - (r + 1))
    have e : r + 1 + (W.toNat - (r + 1)) = W.toNat := by omega
    rw [e] at h
    exact h
  obtain ⟨n, hn1, hn2, hn3⟩ := fixup_loop_exit m W fuel W.toNat (start_worker m env W)
    (by omega) (by omega) hall
  have hexit : allreduce_land W (fixup_rounds m n (start_worker m env W)) = 1 := by
    obtain ⟨n', rfl⟩ : ∃ n', n = n' + 1 := ⟨n - 1, by omega⟩
    by_contra hc
    rcases allreduce_land_cases W (fixup_rounds m (n' + 1) (start_worker m env W)) with h0 | h0
    · exact (loop_result_reduced m W fuel _ _ _ hn3 h0).elim
    · exact hc h0
  refine ⟨n, _, hn3, hn1, by omega, hexit, ?_⟩
  unfold viterbi
  simp only [comm_size_eq]
  have hc : comm_size m.t W = W := by
    unfold comm_size
    split_ifs <;> omega
  rw [hc, if_neg (by omega), hn3]
  simp [ProcEnd.rounds]

/-- Two workers on the three-observation model, one thread each. -/
theorem fixup_terminates_in_order_demo :
    ∃ (n : Nat) (ws : Nat → Worker Int),
      fixup_loop demoHmm 2 2 (start_worker demoHmm demoEnv 2) = some (n, ws) ∧
      1 ≤ n ∧ (n : Int) ≤ 2 ∧ allreduce_land 2 ws = 1 ∧
      (viterbi 2 demoHmm demoEnv 2 0).rounds = some n :=
  fixup_terminates_in_order demoHmm demoEnv 2 2 (by decide) (by decide) (by decide) (by decide)

/-! ## The fixup loop under a thread schedule -/

theorem fixup_range_in_order (m : Hmm V) (w : Worker V) :
    fixup_range_in m (stages_in_order w.lp w.rp) w = fixup_range m w := by
  rw [fixup_range_eq]
  unfold fixup_range_in stages_in_order forLoop
  rw [List.foldl_map]

theorem fixup_round_in_order (m : Hmm V) (ws : Nat → Worker V) (order : Nat → List Int)
    (r : Nat) (h : order r = stages_in_order (ws r).lp (ws r).rp) :
    fixup_round_in m order ws r = fixup_round m ws r := by
  unfold fixup_round_in fixup_round
  simp only
  split_ifs
  · rfl
  · rw [h]
    exact fixup_range_in_order m { ws r with dp1 := round_recv m ws r }
  · rfl

theorem fixup_loop_in_order (m : Hmm V) (W : Int) (ws0 : Nat → Worker V) (fuel : Nat) :
    ∀ (k : Nat) (ws : Nat → Worker V),
      (∀ r, (ws r).lp = (ws0 r).lp ∧ (ws r).rp = (ws0 r).rp) →
      fixup_loop_in m W (in_order_sched ws0) fuel k ws = fixup_loop m W fuel ws := by
  induction fuel with
  | zero => intro k ws _; rfl
  | succ fuel ih =>
    intro k ws hws
    have e : (fun r => fixup_round_in m (in_order_sched ws0 k) ws r) =
        fun r => fixup_round m ws r := by
      funext r
      apply fixup_round_in_order
      show stages_in_order (ws0 r).lp (ws0 r).rp = _
      rw [(hws r).1, (hws r).2]
    have hnext : ∀ r, (fixup_round m ws r).lp = (ws0 r).lp ∧
        (fixup_round m ws r).rp = (ws0 r).rp := by
      intro r
      have h := fixup_round_range m ws r
      exact ⟨h.1.trans (hws r).1, h.2.trans (hws r).2⟩
    simp only [fixup_loop_in, fixup_loop]
    rw [e]
    split_ifs
    · rw [ih (k + 1) _ hnext]
    · rfl

/-- C11. The loop of lines 148-159 over the stages `i` is an
`omp parallel for`, although iteration `i` reads the row `i-1` that iteration
`i-1` may rewrite and all iterations write the one flag `local_converged`; the
order of the iterations is left to the thread schedule. On `raceHmm` (`t = 5`)
with `W = 2` workers, whose ranges are `[1, 3)` and `[3, 5)`, the schedule
`raceSched` lets rank 1 carry out each of its stages once per round, stage 4
before stage 3 in the first round: `global_converged` is 0 after the first and
after the second round, and the loop ends after 3 rounds, more than `W = 2`.
With the stages in increasing order the same run ends after 2 rounds. -/
theorem C11_out_of_order_rounds :
    (start_worker raceHmm demoEnv 2 0).lp = 1 ∧ (start_worker raceHmm demoEnv 2 0).rp = 3 ∧
    (start_worker raceHmm demoEnv 2 1).lp = 3 ∧ (start_worker raceHmm demoEnv 2 1).rp = 5 ∧
    (∀ round : Nat, (raceSched round 0).Perm [1, 2] ∧ (raceSched round 1).Perm [3, 4]) ∧
    allreduce_land 2 (fun r => fixup_round_in raceHmm (raceSched 0)
      (start_worker raceHmm demoEnv 2) r) = 0 ∧
    allreduce_land 2 (fun r => fixup_round_in raceHmm (raceSched 1)
      (fun r => fixup_round_in raceHmm (raceSched 0) (start_worker raceHmm demoEnv 2) r) r) = 0 ∧
    (fixup_loop_in raceHmm 2 raceSched 6 0 (start_worker raceHmm demoEnv 2)).map Prod.fst =
      some 3 ∧
    (fixup_loop raceHmm 2 6 (start_worker raceHmm demoEnv 2)).map Prod.fst = some 2 := by
  refine ⟨by decide, by decide, by decide, by decide, ?_, by decide, by decide, by decide,
    by decide⟩
  intro round
  constructor
  · exact List.Perm.refl _
  · by_cases h : round = 0
    · subst h
      exact List.Perm.swap 3 4 []
    · have e : raceSched round 1 = [3, 4] := by
        unfold raceSched
        rw [if_neg (by decide), if_neg h]
      rw [e]

/-! ## Gathering the backpointers -/

/-- C12 (code behaviour at the failing input). Two runs on two workers that
differ only in the values returned by `get_rand_float` print different
sequences: `[1, 1, 0]` with the placeholders of `ratEnv`, `[1, 1, 1]` with those
of `ratEnvSwapped`. -/
theorem C12_placeholder_changes_output :
    ratEnvSwapped.fresh = ratEnv.fresh ∧ ratEnvSwapped.freshX = ratEnv.freshX ∧
    (viterbi 4 ratHmm ratEnv 2 0).printed = some [1, 1, 0] ∧
    (viterbi 4 ratHmm ratEnvSwapped 2 0).printed = some [1, 1, 1] := by
  refine ⟨rfl, rfl, ?_, ?_⟩ <;> decide!

/-! ## Input shape -/

end ViterbiLtdp
